import Mathlib

/-!
Shallow embedding of the woo-import-images scripts
(fill_images_in_xlsx_multi_bing.py, fill_images_in_xlsx_multi_google.py,
fill_images_in_xlsx_pixibay.py) and proofs about them.

Cell values are Python objects coming out of openpyxl; the scripts use
Python truthiness (`if val and str(val).strip():`) and `str()` conversion on
them, so the embedding models a small inductive type of Python values with
their truthiness and string rendering.
-/

namespace Woo

/-- A cell value as the scripts see it from openpyxl: `None`, a string,
or an integer (openpyxl also yields floats and dates; an integer member is
enough to exhibit every truthiness phenomenon the scripts depend on). -/
inductive Value where
  | vNone : Value
  | vStr : String → Value
  | vInt : Int → Value
deriving DecidableEq, Repr

/-- Python truthiness of a cell value (`if val:`). -/
def pyTruthy : Value → Bool
  | .vNone => false
  | .vStr s => s ≠ ""
  | .vInt n => n ≠ 0

/-- Python `str()` of a cell value. -/
def pyStr : Value → String
  | .vNone => "None"
  | .vStr s => s
  | .vInt n => toString n

/-- The whitespace characters recognised by Python's `str.split()` /
`str.strip()` (ASCII portion; the workbooks at hand are ASCII). -/
def isPySpace (c : Char) : Bool :=
  c = ' ' || c = '\t' || c = '\n' || c = '\r' || c = '\x0b' || c = '\x0c'

/-- Python `str.strip()` on a character list. -/
def pyStripList (l : List Char) : List Char :=
  ((l.dropWhile isPySpace).reverse.dropWhile isPySpace).reverse

/-- Python `str.strip()`. -/
def pyStrip (s : String) : String :=
  String.mk (pyStripList s.data)

/-- Python `str.lower()` (ASCII portion, matching `Char.toLower`). -/
def pyLower (s : String) : String :=
  String.mk (s.data.map Char.toLower)

/-- Helper for `pySplit`: scans characters, accumulating the current word
reversed, emitting words at whitespace boundaries (Python `str.split()`
semantics: split on runs of whitespace, no empty tokens). -/
def wordsAux : List Char → List Char → List (List Char)
  | [], cur => if cur.isEmpty then [] else [cur.reverse]
  | c :: cs, cur =>
    if isPySpace c then
      if cur.isEmpty then wordsAux cs [] else cur.reverse :: wordsAux cs []
    else wordsAux cs (c :: cur)

/-- Python `text.split()` with no separator argument. -/
def pySplit (s : String) : List String :=
  (wordsAux s.data []).map String.mk

/-- Join character-list words with single spaces. -/
def joinSp : List (List Char) → List Char
  | [] => []
  | [w] => w
  | w :: v :: ws => w ++ ' ' :: joinSp (v :: ws)

/-- Python `" ".join(parts)`. -/
def spaceJoin (ts : List String) : String :=
  String.mk (joinSp (ts.map String.data))

/-- The loop body of `dedupe_words` (bing lines 107-117, google lines
228-240): `seen` holds the lowercased forms already emitted. -/
def dedupeAux : List String → List String → List String
  | [], _ => []
  | w :: ws, seen =>
    if pyLower w ∈ seen then dedupeAux ws seen
    else w :: dedupeAux ws (pyLower w :: seen)

/-- `dedupe_words(text)`: remove duplicate words while preserving order
(case-insensitive), as in the bing and google scripts. -/
def dedupe_words (text : String) : String :=
  spaceJoin (dedupeAux (pySplit text) [])

/-- One auxiliary cell's contribution to the query bits:
`if val and str(val).strip(): bits.append(str(val).strip())`. -/
def auxBit (v : Value) : Option String :=
  if pyTruthy v && pyStrip (pyStr v) ≠ "" then some (pyStrip (pyStr v)) else none

/-- The `bits` / `parts` list built by `build_query` in all three scripts:
the stripped primary value followed by each present, non-blank auxiliary
value (stripped). -/
def queryBits (primary : String) (auxv : List Value) : List String :=
  pyStrip primary :: auxv.filterMap auxBit

/-- `build_query` of the bing and google scripts:
`dedupe_words(" ".join(bits))`. -/
def build_query (primary : String) (auxv : List Value) : String :=
  dedupe_words (spaceJoin (queryBits primary auxv))

/-- `build_query` of the pixabay script: `" ".join(parts)` with NO
deduplication (pixibay lines 109-130). -/
def pixabay_build_query (primary : String) (auxv : List Value) : String :=
  spaceJoin (queryBits primary auxv)

/-! ## URL handling: `urlparse(url).netloc` and `domain_is_allowed` -/

/-- Characters allowed after the first letter of a URL scheme
(CPython's `scheme_chars`: ASCII letters, digits, `+`, `-`, `.`). -/
def isSchemeChar (c : Char) : Bool :=
  c.isAlphanum || c = '+' || c = '-' || c = '.'

/-- The WHATWG C0-control-or-space set CPython's `urlsplit` strips from
the left of the URL (code points 0x00 through 0x20 inclusive). -/
def isC0ControlOrSpace (c : Char) : Bool :=
  c.toNat ≤ 0x20

/-- The bytes CPython's `urlsplit` removes from anywhere in the URL
(`_UNSAFE_URL_BYTES_TO_REMOVE = ["\t", "\r", "\n"]`). -/
def isUnsafeUrlByte (c : Char) : Bool :=
  c = '\t' || c = '\r' || c = '\n'

/-- `urlsplit`'s input sanitization, in its order: lstrip the WHATWG
C0-control-or-space characters, then delete every tab/CR/LF. -/
def sanitizeUrl (l : List Char) : List Char :=
  (l.dropWhile isC0ControlOrSpace).filter (fun c => !isUnsafeUrlByte c)

/-- Drop a leading `scheme:`, as `urlsplit` does: split only when a `:`
exists at a positive index, the first character is an ASCII letter and
everything before the `:` is in `scheme_chars`. -/
def dropScheme (l : List Char) : List Char :=
  let pre := l.takeWhile (fun c => c ≠ ':')
  if pre.length < l.length ∧ pre ≠ [] ∧
      (pre.headD 'a').isAlpha = true ∧ pre.all isSchemeChar then
    l.drop (pre.length + 1)
  else l

/-- `netloc.partition('[')[2].partition(']')[0]`: what is between the
first `[` and the following `]` of the netloc. -/
def bracketedHost (netloc : List Char) : List Char :=
  ((netloc.dropWhile (fun c => c ≠ '[')).drop 1).takeWhile (fun c => c ≠ ']')

/-- `urllib.parse.urlparse(url).netloc` as CPython 3.12's `urlsplit`
computes it, or the `ValueError` it raises (`.error ()`).  After the
sanitization and the scheme split, a netloc exists only after a leading
`//` and runs up to the first `/`, `?` or `#` — the whole authority
component, userinfo and port included.  A netloc containing `[` without
`]` (or vice versa) raises "Invalid IPv6 URL"; when both are present the
stdlib's `_check_bracketed_host` raises unless the bracketed text is a
valid IPv6 or IPvFuture address — that validator lives in `urllib`/
`ipaddress`, outside this repository, so its verdict is the parameter
`bhOk` (CPython's check is one fixed instantiation of it). -/
def netlocOf (bhOk : String → Bool) (url : String) : Except Unit String :=
  match dropScheme (sanitizeUrl url.data) with
  | '/' :: '/' :: r =>
    let netloc := r.takeWhile (fun c => c ≠ '/' && c ≠ '?' && c ≠ '#')
    let hasL := netloc.contains '['
    let hasR := netloc.contains ']'
    if hasL != hasR then .error ()
    else if hasL && hasR then
      if bhOk (String.mk (bracketedHost netloc)) then .ok (String.mk netloc)
      else .error ()
    else .ok (String.mk netloc)
  | _ => .ok ""

/-- `domain_is_allowed(url)` (bing lines 95-104), parameterised by the
bracketed-host validator `bhOk` and the `ALLOWED_DOMAINS` configuration
list.  An empty list accepts everything (checked before the `try`);
otherwise `host = (urlparse(url).netloc or "").lower()` and
`any(host.endswith(d.lower()) for d in ALLOWED_DOMAINS)`, with the
`except Exception: return False` arm taken exactly when `urlparse`
raises. -/
def domain_is_allowed (bhOk : String → Bool) (allowedDomains : List String)
    (url : String) : Bool :=
  if allowedDomains.isEmpty then true
  else
    match netlocOf bhOk url with
    | .error _ => false
    | .ok netloc =>
      let host := pyLower netloc
      allowedDomains.any (fun d => (pyLower d).data.isSuffixOf host.data)

/-- Modelled from the spec's words, for comparison with
`domain_is_allowed`: the host "exactly equals or is a subdomain of an
entry in the allow-list" (case-insensitive). -/
def specEqualOrSubdomain (host entry : String) : Bool :=
  pyLower host = pyLower entry ||
    ('.' :: (pyLower entry).data).isSuffixOf (pyLower host).data

/-! ## Liveness probe: `head_ok` -/

/-- The outcome of the `requests.head` existence probe for a given URL and
timeout: either a final HTTP status (redirects already followed), or a
raised exception (network error, timeout, malformed URL, ...). -/
inductive ProbeResult where
  | resp : Nat → ProbeResult
  | failed : ProbeResult
deriving DecidableEq, Repr

/-- `head_ok(url, timeout)` (bing lines 86-92, google 155-161, pixibay
97-107), over an oracle `probe` describing what the network does:
`return 200 <= r.status_code < 400`, any exception caught and mapped to
`False`.  Total: no outcome propagates an exception. -/
def head_ok (probe : String → Nat → ProbeResult) (url : String) (timeout : Nat) : Bool :=
  match probe url timeout with
  | .resp s => 200 ≤ s && s < 400
  | .failed => false

/-! ## Provider HTTP calls: google (with 429 retry) and bing (no retry) -/

/-- Outcome of one `requests.get` to a provider endpoint: an HTTP response
with status and an already-decoded body, or a raised network exception. -/
inductive HttpOutcome (α : Type) where
  | resp : Nat → α → HttpOutcome α
  | netError : HttpOutcome α
deriving DecidableEq, Repr

/-- Extraction of the google result links (google lines 189-196):
`items` entries carry an optional `link`; `if link:` keeps only truthy
(non-empty) strings. -/
def parseLinks (items : List (Option String)) : List String :=
  items.filterMap fun o =>
    match o with
    | some l => if l = "" then none else some l
    | none => none

/-- `google_image_search` (google lines 164-196) over an oracle `http`
giving the outcome of the n-th HTTP request of this call.  Returns the
extracted links together with the number of requests issued: a 429 first
response triggers one wait and one retry, whose failure (429 again, other
HTTP error via `raise_for_status`, or a network exception) yields `[]`;
a non-429 first response is never retried. -/
def google_image_search (http : Nat → HttpOutcome (List (Option String))) :
    List String × Nat :=
  match http 0 with
  | .netError => ([], 1)
  | .resp s items =>
    if s = 429 then
      match http 1 with
      | .netError => ([], 2)
      | .resp s2 items2 => if 400 ≤ s2 then ([], 2) else (parseLinks items2, 2)
    else if 400 ≤ s then ([], 1)
    else (parseLinks items, 1)

/-- One bing results-page fetch (bing lines 199-205): a single
`requests.get` whose exception or HTTP error (`raise_for_status`, which
covers 429) makes the page contribute nothing (`continue`); there is no
retry, so exactly one request is issued.  The body is the candidate list
already extracted by `parse_bing_image_results`. -/
def bing_search_page (http : Nat → HttpOutcome (List String)) :
    Option (List String) × Nat :=
  match http 0 with
  | .netError => (none, 1)
  | .resp s body => if 400 ≤ s then (none, 1) else (some body, 1)

/-! ## Row resolution: first admissible live candidate, short-circuiting -/

/-- The inner candidate loop of `bing_first_live_image` (bing lines
207-211), instrumented with the list of candidates actually probed with
`head_ok`: `if not domain_is_allowed(candidate): continue` (no probe);
`if head_ok(candidate): return candidate` (probe, stop on success). -/
def scanCandidates (allowed live : String → Bool) :
    List String → Option String × List String
  | [] => (none, [])
  | c :: cs =>
    if allowed c then
      if live c then (some c, [c])
      else
        let p := scanCandidates allowed live cs
        (p.1, c :: p.2)
    else scanCandidates allowed live cs

/-- `bing_first_live_image` (bing lines 190-216) over the fetched pages,
instrumented with the probe log.  Each list entry is one page of
`BING_PAGES_FIRST_PARAMS`: `none` when the page request raised
(`except: continue`), `some cands` for the parsed candidate list.
A live admissible candidate returns immediately: later candidates of the
page, later pages, are never reached. -/
def bing_first_live_image (allowed live : String → Bool) :
    List (Option (List String)) → Option String × List String
  | [] => (none, [])
  | none :: rest => bing_first_live_image allowed live rest
  | some cands :: rest =>
    match scanCandidates allowed live cands with
    | (some u, log) => (some u, log)
    | (none, log) =>
      let p := bing_first_live_image allowed live rest
      (p.1, log ++ p.2)

/-- The probe log the source loop is expected to produce on a candidate
stream: skip inadmissible candidates unprobed, probe admissible ones,
stop at the first live one. -/
def expectedProbes (allowed live : String → Bool) : List String → List String
  | [] => []
  | c :: cs =>
    if allowed c then
      if live c then [c] else c :: expectedProbes allowed live cs
    else expectedProbes allowed live cs

/-! ## The worksheet model (openpyxl view used by the scripts)

A sheet is a list of rows, each row a list of cell values; absent cells
read as `None`.  1-based row and column addressing as in openpyxl. -/

/-- Write position `i` of a list, padding with `dflt` when the list is too
short (openpyxl cells spring into existence when written). -/
def padSet {α : Type} (l : List α) (i : Nat) (dflt a : α) : List α :=
  if i < l.length then l.set i a
  else l ++ List.replicate (i - l.length) dflt ++ [a]

/-- A worksheet. -/
structure Sheet where
  rows : List (List Value)
deriving DecidableEq, Repr

/-- `ws.cell(row=r, column=c).value` (1-based; unset cells are `None`). -/
def cellAt (s : Sheet) (r c : Nat) : Value :=
  (s.rows.getD (r - 1) []).getD (c - 1) Value.vNone

/-- `ws.cell(row=r, column=c, value=v)` (1-based). -/
def setCell (s : Sheet) (r c : Nat) (v : Value) : Sheet :=
  ⟨padSet s.rows (r - 1) []
    (padSet (s.rows.getD (r - 1) []) (c - 1) Value.vNone v)⟩

/-- Fold of `max` over the row widths. -/
def colBound (rows : List (List Value)) : Nat :=
  rows.foldr (fun row acc => max row.length acc) 0

/-- `ws.max_column or 1` (openpyxl reports at least 1). -/
def maxCol (s : Sheet) : Nat := max 1 (colBound s.rows)

/-- `ws.max_row` (openpyxl reports at least 1). -/
def maxRow (s : Sheet) : Nat := max 1 s.rows.length

/-! ## Header handling -/

/-- Python-dict assignment `m[k] = v` on an association list: update in
place when the key exists, append otherwise (insertion order kept). -/
def assocSet : List (String × Nat) → String → Nat → List (String × Nat)
  | [], k, v => [(k, v)]
  | (k0, v0) :: rest, k, v =>
    if k0 = k then (k0, v) :: rest else (k0, v0) :: assocSet rest k v

/-- The header-reading loop of `ensure_headers`: for each column of row 1,
`if isinstance(val, str) and val.strip(): existing[val.strip()] = col`. -/
def readHeadersAux (s : Sheet) : List Nat → List (String × Nat) → List (String × Nat)
  | [], m => m
  | c :: cs, m =>
    match cellAt s 1 c with
    | .vStr t =>
      if pyStrip t ≠ "" then readHeadersAux s cs (assocSet m (pyStrip t) c)
      else readHeadersAux s cs m
    | _ => readHeadersAux s cs m

/-- The `existing` dict after the reading loop of `ensure_headers`. -/
def readHeaders (s : Sheet) : List (String × Nat) :=
  readHeadersAux s (List.range' 1 (maxCol s)) []

/-- The appending loop of `ensure_headers`: for each needed header not in
the dict, `max_col += 1; ws.cell(1, max_col, value=h); existing[h] = max_col`. -/
def ensureAux : List String → List (String × Nat) → Nat → Sheet →
    List (String × Nat) × Nat × Sheet
  | [], m, mc, s => (m, mc, s)
  | h :: hs, m, mc, s =>
    match List.lookup h m with
    | some _ => ensureAux hs m mc s
    | none => ensureAux hs (assocSet m h (mc + 1)) (mc + 1) (setCell s 1 (mc + 1) (.vStr h))

/-- `ensure_headers(ws, headers_needed)` (bing 219-241, google 201-223,
pixibay 182-204): returns the `{header_name: column_index}` map and the
possibly extended sheet. -/
def ensure_headers (s : Sheet) (needed : List String) : List (String × Nat) × Sheet :=
  let r := ensureAux needed (readHeaders s) (maxCol s) s
  (r.1, r.2.2)

/-! ## The per-row loop and orchestration -/

/-- `TITLE_HEADER` in all three scripts. -/
def TITLE_HEADER : String := "Title"

/-- `IMAGE_HEADER` in all three scripts. -/
def IMAGE_HEADER : String := "Image"

/-- `OPTIONAL_QUERY_COLUMNS` in all three scripts. -/
def OPTIONAL_QUERY_COLUMNS : List String := ["Brand", "Region"]

/-- The combined check `val and str(val).strip()` used both on the title
cell (negated) and on the existing-image cell: Python-truthy and with a
non-blank string rendering. -/
def nonblank (v : Value) : Bool :=
  pyTruthy v && pyStrip (pyStr v) ≠ ""

/-- The optional-column values read by `build_query`:
`idx = col_index_by_name.get(col_name); if idx: val = ws.cell(...)`.
An absent column contributes nothing (column indices are ≥ 1, hence
always truthy). -/
def optionalVals (s : Sheet) (r : Nat) (m : List (String × Nat)) : List Value :=
  OPTIONAL_QUERY_COLUMNS.filterMap fun nm =>
    match List.lookup nm m with
    | some idx => some (cellAt s r idx)
    | none => none

/-- The row loop of `main` (bing lines 268-291; google 293-326 is the same
shape), over the listed row indices.  `resolve` is the row-resolution
oracle (`bing_first_live_image` / google search + first-live selection)
viewed as a function of the query; fixed provider responses make it a pure
function.  Returns the final sheet, the `filled` count and the `skipped`
count; note the already-filled branch counts in neither. -/
def processRowsAux (resolve : String → Option String) (m : List (String × Nat))
    (tc ic : Nat) : List Nat → Sheet → Sheet × Nat × Nat
  | [], s => (s, 0, 0)
  | r :: rs, s =>
    let titleVal := cellAt s r tc
    if nonblank titleVal = false then
      let p := processRowsAux resolve m tc ic rs s
      (p.1, p.2.1, p.2.2 + 1)
    else if nonblank (cellAt s r ic) then
      processRowsAux resolve m tc ic rs s
    else
      match resolve (build_query (pyStr titleVal) (optionalVals s r m)) with
      | some url =>
        let p := processRowsAux resolve m tc ic rs (setCell s r ic (.vStr url))
        (p.1, p.2.1 + 1, p.2.2)
      | none => processRowsAux resolve m tc ic rs s

/-- One sheet of `main`: `ensure_headers`, then rows `2 .. ws.max_row`. -/
def processSheet (resolve : String → Option String) (s : Sheet) :
    Sheet × Nat × Nat :=
  let e := ensure_headers s [TITLE_HEADER, IMAGE_HEADER]
  let tc := (List.lookup TITLE_HEADER e.1).getD 1
  let ic := (List.lookup IMAGE_HEADER e.1).getD 1
  processRowsAux resolve e.1 tc ic (List.range' 2 (maxRow e.2 - 1)) e.2

/-- All sheets of the workbook, accumulating total counters. -/
def processWorkbook (resolve : String → Option String) :
    List Sheet → List Sheet × Nat × Nat
  | [] => ([], 0, 0)
  | s :: rest =>
    let p := processSheet resolve s
    let q := processWorkbook resolve rest
    (p.1 :: q.1, p.2.1 + q.2.1, p.2.2 + q.2.2)

/-! ## Process-level models of the three `main` functions

These give (exit status, saved workbook or `none`).  A Python script whose
`main` returns normally exits 0; an uncaught exception exits 1. -/

/-- `main` of the bing script: a missing input workbook prints
`[!] Input workbook not found` and RETURNS — exit status 0, nothing
mutated or saved.  Otherwise processes and saves, exit 0. -/
def mainBing (resolve : String → Option String) (input : Option (List Sheet)) :
    Nat × Option (List Sheet) :=
  match input with
  | none => (0, none)
  | some wb => (0, some (processWorkbook resolve wb).1)

/-- `main` of the google script: missing workbook → print and return
(exit 0); then `resolve_google_key_and_cx` raises `RuntimeError` when no
credential source yields both key and cx — uncaught, exit 1, before the
workbook is even loaded; otherwise processes and saves, exit 0. -/
def mainGoogle (resolve : String → Option String)
    (cred : Option (String × String)) (input : Option (List Sheet)) :
    Nat × Option (List Sheet) :=
  match input with
  | none => (0, none)
  | some wb =>
    match cred with
    | none => (1, none)
    | some _ => (0, some (processWorkbook resolve wb).1)

/-- `pixabay_first_image_url(query)` (pixibay lines 133-179): raises
`RuntimeError` whenever the module-level `API_KEY` is empty — on every
call, i.e. per row, not at startup.  With a key, a failed or empty search
yields `none`; otherwise the first hit whose preferred URL is live. -/
def pixabay_first_image_url (apiKey : String)
    (search : String → Option (List (Option String)))
    (live : String → Bool) (query : String) : Except Unit (Option String) :=
  if apiKey = "" then .error ()
  else
    match search query with
    | none => .ok none
    | some hits =>
      .ok ((hits.filterMap id).find? live)

/-- The column index the pass uses for the target `Image` field on sheet
`s`: the one `ensure_headers` returns (the `getD 1` never fires: the
needed header is always present in the returned map). -/
def imageColOf (s : Sheet) : Nat :=
  (List.lookup IMAGE_HEADER (ensure_headers s [TITLE_HEADER, IMAGE_HEADER]).1).getD 1

/-- Modelled from the spec's words ("appended ... immediately after the
last populated header"), for comparison with `ensure_headers`: the largest
row-1 column holding a non-blank string, 0 when there is none. -/
def lastPopulatedHeaderCol (s : Sheet) : Nat :=
  (List.range' 1 (maxCol s)).foldl
    (fun acc c =>
      match cellAt s 1 c with
      | .vStr t => if pyStrip t ≠ "" then c else acc
      | _ => acc) 0

/-- Concrete sheet: a row whose Image cell holds the integer 0 — Python-
falsy, but rendering to the non-blank string `"0"`. -/
def zeroImageSheet : Sheet :=
  ⟨[[.vStr "Title", .vStr "Image"], [.vStr "Shirt", .vInt 0]]⟩

/-- Concrete sheet: the header row has one populated header but a data row
is three columns wide, so `ws.max_column` is 3. -/
def wideSheet : Sheet :=
  ⟨[[.vStr "Title"], [.vStr "a", .vStr "b", .vStr "c"]]⟩

/-- Concrete sheet: one already-filled row, one fillable row, one
blank-title row. -/
def mixedSheet : Sheet :=
  ⟨[[.vStr "Title", .vStr "Image"],
    [.vStr "A", .vStr "http://keep/a.jpg"],
    [.vStr "B", .vNone],
    [.vNone, .vNone]]⟩

/-- A resolver oracle that always finds the same URL. -/
def constResolve : String → Option String :=
  fun _ => some "http://img.example/x.jpg"

/-- Every value of the map is in `[1, b]`. -/
def mapUB (m : List (String × Nat)) (b : Nat) : Prop :=
  ∀ p ∈ m, 1 ≤ p.2 ∧ p.2 ≤ b

/-- No two entries share a value (column): distinct header names sit in
distinct columns. -/
def mapInj (m : List (String × Nat)) : Prop :=
  ∀ p ∈ m, ∀ q ∈ m, p.2 = q.2 → p.1 = q.1

/-- A row on which the loop body writes nothing: blank title, or target
cell already non-blank, or the resolver finds nothing for its query.
(Verification predicate over the embedded state; every row satisfies it
after one pass.) -/
def rowStable (resolve : String → Option String) (m : List (String × Nat))
    (tc ic : Nat) (s : Sheet) (r : Nat) : Prop :=
  nonblank (cellAt s r tc) = false ∨
  nonblank (cellAt s r ic) = true ∨
  resolve (build_query (pyStr (cellAt s r tc)) (optionalVals s r m)) = none

/-! ## Lemmas: tokenization and word deduplication -/

theorem dedupeAux_sublist (ws : List String) (seen : List String) :
    (dedupeAux ws seen).Sublist ws := by
  induction ws generalizing seen with
  | nil => simp [dedupeAux]
  | cons w ws ih =>
    simp only [dedupeAux]
    by_cases h : pyLower w ∈ seen
    · simp only [if_pos h]
      exact (ih seen).trans (List.sublist_cons_self w ws)
    · simp only [if_neg h]
      exact List.Sublist.cons₂ w (ih (pyLower w :: seen))

theorem mem_dedupeAux_notin_seen (ws seen : List String) (w : String) :
    w ∈ dedupeAux ws seen → pyLower w ∉ seen := by
  induction ws generalizing seen with
  | nil => intro hw; simp [dedupeAux] at hw
  | cons x xs ih =>
    intro hw
    simp only [dedupeAux] at hw
    by_cases h : pyLower x ∈ seen
    · rw [if_pos h] at hw
      exact ih seen hw
    · rw [if_neg h] at hw
      rcases List.mem_cons.mp hw with hw | hw
      · subst hw; exact h
      · intro hmem
        exact ih _ hw (List.mem_cons_of_mem _ hmem)

theorem dedupeAux_pairwise (ws seen : List String) :
    (dedupeAux ws seen).Pairwise (fun a b => pyLower a ≠ pyLower b) := by
  induction ws generalizing seen with
  | nil => simp [dedupeAux]
  | cons x xs ih =>
    simp only [dedupeAux]
    by_cases h : pyLower x ∈ seen
    · rw [if_pos h]; exact ih seen
    · rw [if_neg h]
      refine List.Pairwise.cons ?_ (ih (pyLower x :: seen))
      intro b hb heq
      have := mem_dedupeAux_notin_seen _ _ _ hb
      exact this (by rw [← heq]; exact List.mem_cons_self _ _)

theorem dedupeAux_cover (ws seen : List String) (w : String) :
    w ∈ ws →
    (pyLower w ∈ seen ∨ ∃ u ∈ dedupeAux ws seen, pyLower u = pyLower w) := by
  induction ws generalizing seen with
  | nil => intro hw; simp at hw
  | cons x xs ih =>
    intro hw
    simp only [dedupeAux]
    rcases List.mem_cons.mp hw with rfl | hw
    · by_cases h : pyLower w ∈ seen
      · exact Or.inl h
      · refine Or.inr ⟨w, ?_, rfl⟩
        rw [if_neg h]; exact List.mem_cons_self _ _
    · by_cases h : pyLower x ∈ seen
      · rw [if_pos h]; exact ih seen hw
      · rw [if_neg h]
        rcases ih (pyLower x :: seen) hw with hmem | ⟨u, hu, hlow⟩
        · rcases List.mem_cons.mp hmem with heq | hmem
          · exact Or.inr ⟨x, List.mem_cons_self _ _, heq.symm⟩
          · exact Or.inl hmem
        · exact Or.inr ⟨u, List.mem_cons_of_mem _ hu, hlow⟩

theorem dedupeAux_id (ws seen : List String)
    (hseen : ∀ w ∈ ws, pyLower w ∉ seen)
    (hpw : ws.Pairwise (fun a b => pyLower a ≠ pyLower b)) :
    dedupeAux ws seen = ws := by
  induction ws generalizing seen with
  | nil => rfl
  | cons x xs ih =>
    simp only [dedupeAux]
    rw [if_neg (hseen x (List.mem_cons_self _ _))]
    congr 1
    rcases List.pairwise_cons.mp hpw with ⟨hx, hxs⟩
    refine ih _ ?_ hxs
    intro w hw
    intro hmem
    rcases List.mem_cons.mp hmem with heq | hmem
    · exact hx w hw heq.symm
    · exact hseen w (List.mem_cons_of_mem _ hw) hmem

theorem wordsAux_good (l cur : List Char)
    (hcur : ∀ c ∈ cur, isPySpace c = false) :
    ∀ w ∈ wordsAux l cur, w ≠ [] ∧ ∀ c ∈ w, isPySpace c = false := by
  induction l generalizing cur with
  | nil =>
    intro w hw
    simp only [wordsAux] at hw
    by_cases h : cur.isEmpty
    · rw [if_pos h] at hw; simp at hw
    · rw [if_neg h] at hw
      rcases List.mem_singleton.mp hw with rfl
      constructor
      · simpa [List.isEmpty_iff] using h
      · intro c hc; exact hcur c (List.mem_reverse.mp hc)
  | cons x xs ih =>
    intro w hw
    simp only [wordsAux] at hw
    by_cases hx : isPySpace x
    · rw [if_pos hx] at hw
      by_cases h : cur.isEmpty
      · rw [if_pos h] at hw
        exact ih [] (by simp) w hw
      · rw [if_neg h] at hw
        rcases List.mem_cons.mp hw with rfl | hw
        · constructor
          · simpa [List.isEmpty_iff] using h
          · intro c hc; exact hcur c (List.mem_reverse.mp hc)
        · exact ih [] (by simp) w hw
    · rw [if_neg hx] at hw
      refine ih (x :: cur) ?_ w hw
      intro c hc
      rcases List.mem_cons.mp hc with rfl | hc
      · exact Bool.not_eq_true _ ▸ (by simpa using hx)
      · exact hcur c hc

theorem wordsAux_append_word (w l cur : List Char)
    (hw : ∀ c ∈ w, isPySpace c = false) :
    wordsAux (w ++ l) cur = wordsAux l (w.reverse ++ cur) := by
  induction w generalizing cur with
  | nil => simp
  | cons c cs ih =>
    have hc : isPySpace c = false := hw c (List.mem_cons_self _ _)
    have step : wordsAux (c :: cs ++ l) cur = wordsAux (cs ++ l) (c :: cur) := by
      simp [wordsAux, hc]
    rw [step, ih (c :: cur) (fun d hd => hw d (List.mem_cons_of_mem _ hd))]
    simp

theorem wordsAux_joinSp (ts : List (List Char))
    (hts : ∀ w ∈ ts, w ≠ [] ∧ ∀ c ∈ w, isPySpace c = false) :
    wordsAux (joinSp ts) [] = ts := by
  induction ts with
  | nil => rfl
  | cons w ws ih =>
    rcases hts w (List.mem_cons_self _ _) with ⟨hne, hchars⟩
    have hrev : w.reverse.isEmpty = false := by
      simp [List.isEmpty_iff, hne]
    match ws with
    | [] =>
      show wordsAux (joinSp [w]) [] = [w]
      have hjw : joinSp [w] = w ++ [] := by simp [joinSp]
      rw [hjw, wordsAux_append_word w [] [] hchars]
      simp [wordsAux, hrev]
    | v :: vs =>
      show wordsAux (w ++ ' ' :: joinSp (v :: vs)) [] = w :: v :: vs
      rw [wordsAux_append_word w _ [] hchars]
      simp only [wordsAux, List.append_nil]
      rw [if_pos (by simp [isPySpace])]
      rw [hrev]
      simp only [Bool.false_eq_true, if_false, List.reverse_reverse]
      congr 1
      exact ih (fun u hu => hts u (List.mem_cons_of_mem _ hu))

theorem string_mk_data (s : String) : String.mk s.data = s := rfl

theorem data_ne_nil_of_ne_empty (t : String) (h : t ≠ "") : t.data ≠ [] := by
  intro hd
  apply h
  have : String.mk t.data = String.mk [] := by rw [hd]
  simpa using this

theorem pySplit_spaceJoin (ts : List String)
    (hts : ∀ t ∈ ts, t ≠ "" ∧ ∀ c ∈ t.data, isPySpace c = false) :
    pySplit (spaceJoin ts) = ts := by
  unfold pySplit spaceJoin
  rw [show (String.mk (joinSp (ts.map String.data))).data = joinSp (ts.map String.data) from rfl]
  rw [wordsAux_joinSp (ts.map String.data) ?_]
  · rw [List.map_map]
    exact List.map_congr_left (fun t _ => string_mk_data t) |>.trans (List.map_id ts)
  · intro w hw
    rcases List.mem_map.mp hw with ⟨t, ht, rfl⟩
    rcases hts t ht with ⟨hne, hch⟩
    exact ⟨data_ne_nil_of_ne_empty t hne, hch⟩

theorem pySplit_good (s : String) :
    ∀ t ∈ pySplit s, t ≠ "" ∧ ∀ c ∈ t.data, isPySpace c = false := by
  intro t ht
  rcases List.mem_map.mp ht with ⟨w, hw, rfl⟩
  rcases wordsAux_good s.data [] (by simp) w hw with ⟨hne, hch⟩
  constructor
  · intro h
    exact hne (by simpa using congrArg String.data h)
  · exact hch

theorem dedupe_words_eq (text : String) :
    dedupe_words text = spaceJoin (dedupeAux (pySplit text) []) := rfl

theorem pySplit_dedupe_words (text : String) :
    pySplit (dedupe_words text) = dedupeAux (pySplit text) [] := by
  rw [dedupe_words_eq]
  refine pySplit_spaceJoin _ ?_
  intro t ht
  exact pySplit_good text t ((dedupeAux_sublist (pySplit text) []).mem ht)

/-! ## Lemmas: the candidate scan of `bing_first_live_image` -/

theorem scanCandidates_eq (allowed live : String → Bool) (cands : List String) :
    scanCandidates allowed live cands =
      (cands.find? (fun c => allowed c && live c),
        expectedProbes allowed live cands) := by
  induction cands with
  | nil => rfl
  | cons c cs ih =>
    simp only [scanCandidates, expectedProbes, List.find?_cons]
    cases ha : allowed c with
    | true =>
      cases hl : live c with
      | true => simp [ha, hl]
      | false => simp [ha, hl, ih]
    | false => simp [ha, ih]

theorem expectedProbes_append (allowed live : String → Bool) (l1 l2 : List String) :
    expectedProbes allowed live (l1 ++ l2) =
      match l1.find? (fun c => allowed c && live c) with
      | some _ => expectedProbes allowed live l1
      | none => expectedProbes allowed live l1 ++ expectedProbes allowed live l2 := by
  induction l1 with
  | nil => simp [expectedProbes]
  | cons c cs ih =>
    cases h : List.find? (fun c => allowed c && live c) cs with
    | some u =>
      rw [h] at ih
      cases ha : allowed c with
      | true =>
        cases hl : live c with
        | true => simp [expectedProbes, List.find?_cons, ha, hl]
        | false => simp [expectedProbes, List.find?_cons, ha, hl, h, ih]
      | false => simp [expectedProbes, List.find?_cons, ha, h, ih]
    | none =>
      rw [h] at ih
      cases ha : allowed c with
      | true =>
        cases hl : live c with
        | true => simp [expectedProbes, List.find?_cons, ha, hl]
        | false => simp [expectedProbes, List.find?_cons, ha, hl, h, ih]
      | false => simp [expectedProbes, List.find?_cons, ha, h, ih]

/-! ## Claim theorems: C2, C3, C4, C6, C7, C10 -/

/-- C2 (corrected).  For the bing and google scripts the built query is the
whitespace tokenization of the concatenated bits with case-insensitive
first-occurrence deduplication, original casing and order kept, rejoined
with single spaces, and its tokens are pairwise distinct under
case-insensitive comparison.  The pixabay script's `build_query`, by
contrast, joins the bits with no deduplication at all. -/
theorem c2_query_dedup (p : String) (auxv : List Value) :
    build_query p auxv = spaceJoin (pySplit (build_query p auxv)) ∧
    (pySplit (build_query p auxv)).Sublist (pySplit (spaceJoin (queryBits p auxv))) ∧
    (pySplit (build_query p auxv)).Pairwise (fun a b => pyLower a ≠ pyLower b) ∧
    (∀ w ∈ pySplit (spaceJoin (queryBits p auxv)),
      ∃ u ∈ pySplit (build_query p auxv), pyLower u = pyLower w) ∧
    pixabay_build_query p auxv = spaceJoin (queryBits p auxv) := by
  have hq : build_query p auxv = dedupe_words (spaceJoin (queryBits p auxv)) := rfl
  have hs : pySplit (build_query p auxv)
      = dedupeAux (pySplit (spaceJoin (queryBits p auxv))) [] := by
    rw [hq]; exact pySplit_dedupe_words _
  refine ⟨?_, ?_, ?_, ?_, rfl⟩
  · rw [hs, hq, dedupe_words_eq]
  · rw [hs]; exact dedupeAux_sublist _ _
  · rw [hs]; exact dedupeAux_pairwise _ _
  · intro w hw
    rw [hs]
    rcases dedupeAux_cover (pySplit (spaceJoin (queryBits p auxv))) [] w hw with h | h
    · simp at h
    · exact h

/-- C2 counterexample.  The pixabay script's `build_query` (cited by the
claim) performs no deduplication: primary value `"India"` with auxiliary
`"India"` yields the query `"India India"`, whose two tokens are equal
even case-sensitively — the claim's universal dedup property fails. -/
theorem c2_counterexample :
    pixabay_build_query "India" [Value.vStr "India"] = "India India" ∧
    pySplit (pixabay_build_query "India" [Value.vStr "India"]) = ["India", "India"] ∧
    ¬ (pySplit (pixabay_build_query "India" [Value.vStr "India"])).Pairwise
        (fun a b => pyLower a ≠ pyLower b) := by
  refine ⟨by decide, by decide, ?_⟩
  intro h
  rw [show pySplit (pixabay_build_query "India" [Value.vStr "India"])
      = ["India", "India"] from by decide] at h
  exact (List.pairwise_cons.mp h).1 "India" (List.mem_singleton.mpr rfl) rfl

/-- C10 (confirmed).  `dedupe_words` is idempotent and its output's token
list is a subsequence of the whitespace-split tokens of the input. -/
theorem c10_dedupe_idempotent (s : String) :
    dedupe_words (dedupe_words s) = dedupe_words s ∧
    (pySplit (dedupe_words s)).Sublist (pySplit s) := by
  have hs : pySplit (dedupe_words s) = dedupeAux (pySplit s) [] :=
    pySplit_dedupe_words s
  constructor
  · rw [dedupe_words_eq (dedupe_words s), hs,
      dedupeAux_id _ [] (by simp) (dedupeAux_pairwise _ _), dedupe_words_eq]
  · rw [hs]; exact dedupeAux_sublist _ _

/-- C3 (corrected).  `domain_is_allowed` accepts exactly when the
allow-list is empty, or `urlparse` parses the URL without raising and the
lowercased netloc (the sanitized authority component — userinfo and port
included, tabs/CRs/LFs removed) has some lowercased entry as a plain
string suffix — no dot-boundary check.  A `ValueError` from `urlparse`
(e.g. an unbalanced-bracket netloc such as in
`http://a]b.example.com/x.jpg`) takes the `except` arm: the URL is
rejected whatever the allow-list relation would say.  The claim's two
concrete examples do hold, for every bracketed-host validator. -/
theorem c3_allowlist (bhOk : String → Bool) (allowedDomains : List String)
    (url : String) :
    (domain_is_allowed bhOk allowedDomains url = true ↔
      (allowedDomains = [] ∨ ∃ n, netlocOf bhOk url = .ok n ∧
        ∃ d ∈ allowedDomains,
          (pyLower d).data.isSuffixOf (pyLower n).data = true)) ∧
    domain_is_allowed bhOk ["example.com"] "http://img.cdn.other.com/x.jpg"
      = false ∧
    domain_is_allowed bhOk ["example.com"] "http://cdn.example.com/x.jpg"
      = true ∧
    domain_is_allowed bhOk ["example.com"] "http://a]b.example.com/x.jpg"
      = false := by
  refine ⟨?_, rfl, rfl, rfl⟩
  unfold domain_is_allowed
  by_cases he : allowedDomains.isEmpty
  · simp [he, List.isEmpty_iff.mp he]
  · rw [if_neg he]
    have hne : allowedDomains ≠ [] := fun h => he (by simp [h])
    cases hn : netlocOf bhOk url with
    | error e =>
      simp only [Bool.false_eq_true, false_iff]
      rintro (rfl | ⟨n, hok, -⟩)
      · exact hne rfl
      · exact Except.noConfusion hok
    | ok n =>
      dsimp only
      rw [List.any_eq_true]
      constructor
      · rintro ⟨d, hd, hsuf⟩
        exact Or.inr ⟨n, rfl, d, hd, hsuf⟩
      · rintro (rfl | ⟨n2, hok, d, hd, hsuf⟩)
        · exact absurd rfl hne
        · rcases Except.ok.inj hok with rfl
          exact ⟨d, hd, hsuf⟩

/-- C3 counterexample.  With allow-list `["example.com"]`, a URL hosted at
`notexample.com` — neither equal to nor a subdomain of `example.com` — is
accepted by `domain_is_allowed`, because `str.endswith` is a plain suffix
match; the claim's "exactly equals or is a subdomain" biconditional is
false.  (The URL has no brackets, so the bracketed-host validator is
never consulted; any instantiation shows the failure.) -/
theorem c3_counterexample :
    domain_is_allowed (fun _ => true) ["example.com"]
      "http://notexample.com/img.jpg" = true ∧
    netlocOf (fun _ => true) "http://notexample.com/img.jpg"
      = .ok "notexample.com" ∧
    specEqualOrSubdomain "notexample.com" "example.com" = false := by
  refine ⟨by decide, rfl, by decide⟩

/-- C4 (confirmed).  Resolution scans pages in order and candidates within
a page in order, returns the first admissible live candidate, and probes
nothing after it: the result is `find?` of admissible-and-live over the
concatenated candidate stream, and the probe log is exactly the admissible
candidates up to and including the winner.  On the spec's example the
winner is `liveurl2` and `liveurl3` (and the next page) are never
probed. -/
theorem c4_short_circuit (allowed live : String → Bool)
    (pages : List (Option (List String))) :
    bing_first_live_image allowed live pages =
      ((pages.filterMap id).flatten.find? (fun c => allowed c && live c),
        expectedProbes allowed live (pages.filterMap id).flatten) ∧
    bing_first_live_image (fun _ => true)
        (fun c => c = "liveurl2" || c = "liveurl3")
        [some ["deadurl1", "liveurl2", "liveurl3"], some ["otherpage1"]] =
      (some "liveurl2", ["deadurl1", "liveurl2"]) ∧
    "liveurl3" ∉ (bing_first_live_image (fun _ => true)
        (fun c => c = "liveurl2" || c = "liveurl3")
        [some ["deadurl1", "liveurl2", "liveurl3"], some ["otherpage1"]]).2 ∧
    "otherpage1" ∉ (bing_first_live_image (fun _ => true)
        (fun c => c = "liveurl2" || c = "liveurl3")
        [some ["deadurl1", "liveurl2", "liveurl3"], some ["otherpage1"]]).2 := by
  refine ⟨?_, by decide, by decide, by decide⟩
  induction pages with
  | nil => rfl
  | cons page rest ih =>
    cases page with
    | none =>
      have h1 : bing_first_live_image allowed live (none :: rest)
          = bing_first_live_image allowed live rest := rfl
      have h2 : List.filterMap id (none :: rest) = List.filterMap id rest := rfl
      rw [h1, h2]
      exact ih
    | some cands =>
      have h2 : List.filterMap id (some cands :: rest)
          = cands :: List.filterMap id rest := rfl
      rw [h2, List.flatten_cons]
      simp only [bing_first_live_image, scanCandidates_eq]
      cases h : cands.find? (fun c => allowed c && live c) with
      | some u =>
        have hf : (cands ++ (List.filterMap id rest).flatten).find?
            (fun c => allowed c && live c) = some u := by
          rw [List.find?_append, h]; rfl
        rw [hf, expectedProbes_append, h]
      | none =>
        have hf : (cands ++ (List.filterMap id rest).flatten).find?
            (fun c => allowed c && live c)
            = (List.filterMap id rest).flatten.find? (fun c => allowed c && live c) := by
          rw [List.find?_append, h]; rfl
        rw [hf, expectedProbes_append, h, ih]

/-- C6 (confirmed).  The liveness probe returns true exactly when the
probe's final response status is in 200..399; every raised outcome
(network error, timeout, malformed URL) is caught and mapped to false, so
the function is total and propagates nothing. -/
theorem c6_head_ok (probe : String → Nat → ProbeResult) (url : String) (t : Nat) :
    head_ok probe url t = true ↔
      ∃ s, probe url t = .resp s ∧ 200 ≤ s ∧ s ≤ 399 := by
  unfold head_ok
  cases hp : probe url t with
  | resp s =>
    simp only [Bool.and_eq_true, decide_eq_true_eq]
    constructor
    · rintro ⟨h1, h2⟩
      exact ⟨s, rfl, h1, by omega⟩
    · rintro ⟨s2, hs2, h1, h2⟩
      injection hs2 with h
      subst h
      exact ⟨h1, by omega⟩
  | failed =>
    simp only [Bool.false_eq_true, false_iff]
    rintro ⟨s, hs, -, -⟩
    exact ProbeResult.noConfusion hs

/-- C7 (corrected).  Only the google script has the wait-and-retry: a 429
first response leads to exactly one retry (two requests total), whose
failure in any form yields `[]` with no further attempt, and a non-429
first response is never retried.  The bing page fetch issues exactly one
request per page whatever happens; a 429 there is an ordinary transient
failure with no retry. -/
theorem c7_quota_retry (http : Nat → HttpOutcome (List (Option String)))
    (items : List (Option String)) (h429 : http 0 = .resp 429 items) :
    (google_image_search http).2 = 2 ∧
    (∀ items2, http 1 = .resp 429 items2 → google_image_search http = ([], 2)) ∧
    (http 1 = .netError → google_image_search http = ([], 2)) ∧
    (∀ (g : Nat → HttpOutcome (List (Option String))) (s : Nat) its,
      g 0 = .resp s its → s ≠ 429 → (google_image_search g).2 = 1) ∧
    (∀ b : Nat → HttpOutcome (List String), (bing_search_page b).2 = 1) := by
  refine ⟨?_, ?_, ?_, ?_, ?_⟩
  · unfold google_image_search
    rw [h429]
    simp only [if_pos rfl]
    cases http 1 with
    | netError => rfl
    | resp s2 items2 => by_cases h : 400 ≤ s2 <;> simp [h]
  · intro items2 h2
    unfold google_image_search
    rw [h429, h2]
    simp
  · intro h2
    unfold google_image_search
    rw [h429, h2]
    simp
  · intro g s its h0 hne
    unfold google_image_search
    rw [h0]
    simp only [if_neg hne]
    by_cases h : 400 ≤ s <;> simp [h]
  · intro b
    unfold bing_search_page
    cases b 0 with
    | netError => rfl
    | resp s body => by_cases h : 400 ≤ s <;> simp [h]

/-- C7 witness: a concrete call whose first response is 429 and whose
retry is 429 again — two requests, empty result. -/
theorem c7_quota_retry_witness :
    (google_image_search (fun _ => HttpOutcome.resp 429 [])).2 = 2 ∧
    google_image_search (fun _ => HttpOutcome.resp 429 []) = ([], 2) := by
  have h := c7_quota_retry (fun _ => HttpOutcome.resp 429 []) [] rfl
  exact ⟨h.1, h.2.1 [] rfl⟩

/-- C7 counterexample.  A bing page fetch answered 429 issues exactly one
request and yields nothing — there is no wait-and-retry, contradicting the
claim's "every provider search call ... exactly one retry". -/
theorem c7_counterexample :
    bing_search_page (fun _ => HttpOutcome.resp 429 ["http://a/img.jpg"]) = (none, 1) ∧
    (bing_search_page (fun _ => HttpOutcome.resp 429 ["http://a/img.jpg"])).2 ≠ 2 := by
  decide

/-! ## Lemmas: cells, `setCell`, sheet dimensions -/

theorem padSet_length {α : Type} (l : List α) (i : Nat) (d a : α) :
    (padSet l i d a).length = max l.length (i + 1) := by
  unfold padSet
  by_cases h : i < l.length
  · rw [if_pos h]; simp; omega
  · rw [if_neg h]; simp; omega

theorem getD_padSet_self {α : Type} (l : List α) (i : Nat) (d a : α) :
    (padSet l i d a).getD i d = a := by
  unfold padSet
  by_cases h : i < l.length
  · rw [if_pos h, List.getD_eq_getElem?_getD, List.getElem?_set_self h]; rfl
  · rw [if_neg h, List.getD_eq_getElem?_getD,
      List.getElem?_append_right (by simp; omega)]
    rw [show i - (l ++ List.replicate (i - l.length) d).length = 0 by simp; omega]
    rfl

theorem getD_padSet_ne {α : Type} (l : List α) (i j : Nat) (d a : α)
    (hne : j ≠ i) : (padSet l i d a).getD j d = l.getD j d := by
  unfold padSet
  by_cases h : i < l.length
  · rw [if_pos h, List.getD_eq_getElem?_getD, List.getElem?_set_ne (Ne.symm hne),
      ← List.getD_eq_getElem?_getD]
  · rw [if_neg h]
    by_cases hj : j < l.length
    · rw [List.getD_eq_getElem?_getD,
        List.getElem?_append_left (by simp; omega), List.getElem?_append_left hj,
        ← List.getD_eq_getElem?_getD]
    · rw [List.getD_eq_default l d (by omega), List.getD_eq_getElem?_getD]
      by_cases hj2 : j < l.length + (i - l.length)
      · rw [List.getElem?_append_left (by simp; omega),
          List.getElem?_append_right (by omega), List.getElem?_replicate,
          if_pos (by omega)]
        rfl
      · rw [List.getElem?_append_right (by simp; omega)]
        rw [show j - (l ++ List.replicate (i - l.length) d).length
            = j - (l.length + (i - l.length)) by simp]
        rw [List.getElem?_eq_none (by simp; omega)]
        rfl

theorem cellAt_setCell_self (s : Sheet) (r c : Nat) (v : Value) :
    cellAt (setCell s r c v) r c = v := by
  unfold cellAt setCell
  simp only
  rw [getD_padSet_self, getD_padSet_self]

theorem cellAt_setCell_ne (s : Sheet) (r c : Nat) (v : Value) (r2 c2 : Nat)
    (h : r2 - 1 ≠ r - 1 ∨ c2 - 1 ≠ c - 1) :
    cellAt (setCell s r c v) r2 c2 = cellAt s r2 c2 := by
  unfold cellAt setCell
  simp only
  rcases h with h | h
  · rw [getD_padSet_ne _ _ _ _ _ h]
  · by_cases hr : r2 - 1 = r - 1
    · rw [hr, getD_padSet_self, getD_padSet_ne _ _ _ _ _ h]
    · rw [getD_padSet_ne _ _ _ _ _ hr]

theorem rows_length_setCell (s : Sheet) (r c : Nat) (v : Value) :
    (setCell s r c v).rows.length = max s.rows.length (r - 1 + 1) := by
  unfold setCell
  simp only
  rw [padSet_length]

theorem maxRow_setCell (s : Sheet) (r c : Nat) (v : Value) (hr : 1 ≤ r) :
    maxRow (setCell s r c v) = max (maxRow s) r := by
  unfold maxRow
  rw [rows_length_setCell]
  omega

theorem colBound_append (l1 l2 : List (List Value)) :
    colBound (l1 ++ l2) = max (colBound l1) (colBound l2) := by
  induction l1 with
  | nil => simp [colBound]
  | cons x xs ih =>
    simp only [List.cons_append, colBound, List.foldr_cons] at ih ⊢
    rw [ih]
    omega

theorem colBound_replicate_nil (n : Nat) :
    colBound (List.replicate n ([] : List Value)) = 0 := by
  induction n with
  | zero => rfl
  | succ k ih => simpa [colBound, List.replicate_succ] using ih

theorem getD_length_le_colBound (rows : List (List Value)) (i : Nat) :
    (rows.getD i []).length ≤ colBound rows := by
  induction rows generalizing i with
  | nil => simp
  | cons x xs ih =>
    cases i with
    | zero => simp [colBound]
    | succ j =>
      have := ih j
      simp only [colBound, List.foldr_cons] at this ⊢
      have hd : (x :: xs).getD (j + 1) [] = xs.getD j [] := by
        simp [List.getD_eq_getElem?_getD]
      rw [hd]
      omega

theorem padSet_cons_succ {α : Type} (x : α) (xs : List α) (j : Nat) (d a : α) :
    padSet (x :: xs) (j + 1) d a = x :: padSet xs j d a := by
  unfold padSet
  by_cases h : j < xs.length
  · rw [if_pos (by simp; omega), if_pos h, List.set_cons_succ]
  · rw [if_neg (by simp; omega), if_neg h]
    simp only [List.cons_append, List.length_cons]
    rw [show j + 1 - (xs.length + 1) = j - xs.length by omega]

theorem colBound_padSet (rows : List (List Value)) (i : Nat) (nr : List Value)
    (hle : (rows.getD i []).length ≤ nr.length) :
    colBound (padSet rows i [] nr) = max (colBound rows) nr.length := by
  induction rows generalizing i with
  | nil =>
    unfold padSet
    rw [if_neg (by simp)]
    simp only [List.nil_append]
    rw [colBound_append, colBound_replicate_nil]
    simp [colBound]
  | cons x xs ih =>
    cases i with
    | zero =>
      unfold padSet
      rw [if_pos (by simp)]
      simp only [List.set_cons_zero, colBound, List.foldr_cons]
      simp only [List.getD_cons_zero] at hle
      omega
    | succ j =>
      rw [padSet_cons_succ]
      simp only [colBound, List.foldr_cons]
      have hle2 : (xs.getD j []).length ≤ nr.length := by
        simpa [List.getD_eq_getElem?_getD] using hle
      have := ih j hle2
      simp only [colBound] at this
      rw [this]
      omega

theorem maxCol_setCell (s : Sheet) (r c : Nat) (v : Value) (hc : 1 ≤ c) :
    maxCol (setCell s r c v) = max (maxCol s) c := by
  unfold maxCol setCell
  simp only
  rw [colBound_padSet]
  · rw [padSet_length]
    have := getD_length_le_colBound s.rows (r - 1)
    omega
  · rw [padSet_length]; omega

theorem cellAt_beyond_col (s : Sheet) (r c : Nat) (h : maxCol s < c) :
    cellAt s r c = .vNone := by
  unfold cellAt
  have h1 : (s.rows.getD (r - 1) []).length ≤ colBound s.rows :=
    getD_length_le_colBound s.rows (r - 1)
  have h2 : colBound s.rows ≤ maxCol s := by unfold maxCol; omega
  rw [List.getD_eq_default _ _ (by omega)]

/-! ## Lemmas: association-list maps -/

theorem lookup_assocSet_self (m : List (String × Nat)) (k : String) (v : Nat) :
    List.lookup k (assocSet m k v) = some v := by
  induction m with
  | nil => simp [assocSet, List.lookup]
  | cons p rest ih =>
    obtain ⟨k0, v0⟩ := p
    unfold assocSet
    by_cases h : k0 = k
    · rw [if_pos h, List.lookup_cons]
      simp [h]
    · rw [if_neg h, List.lookup_cons]
      have : (k == k0) = false := beq_false_of_ne (fun hk => h hk.symm)
      simp [this, ih]

theorem lookup_assocSet_ne (m : List (String × Nat)) (k : String) (v : Nat)
    (k2 : String) (h : k2 ≠ k) :
    List.lookup k2 (assocSet m k v) = List.lookup k2 m := by
  induction m with
  | nil =>
    simp [assocSet, List.lookup, beq_false_of_ne h]
  | cons p rest ih =>
    obtain ⟨k0, v0⟩ := p
    unfold assocSet
    by_cases hk : k0 = k
    · subst hk
      rw [if_pos rfl, List.lookup_cons, List.lookup_cons]
      simp [beq_false_of_ne h]
    · rw [if_neg hk, List.lookup_cons, List.lookup_cons]
      cases hbeq : (k2 == k0) with
      | true => simp
      | false => simp [ih]

theorem lookup_mem (m : List (String × Nat)) (k : String) (v : Nat)
    (h : List.lookup k m = some v) : (k, v) ∈ m := by
  induction m with
  | nil => simp [List.lookup] at h
  | cons p rest ih =>
    obtain ⟨k0, v0⟩ := p
    rw [List.lookup_cons] at h
    cases hbeq : (k == k0) with
    | true =>
      rw [hbeq] at h
      simp only at h
      have hk : k = k0 := eq_of_beq hbeq
      subst hk
      rcases Option.some.injEq .. ▸ h with rfl
      exact List.mem_cons_self _ _
    | false =>
      rw [hbeq] at h
      simp only at h
      exact List.mem_cons_of_mem _ (ih h)

theorem mapUB_mono (m : List (String × Nat)) (b b2 : Nat) (h : mapUB m b)
    (hb : b ≤ b2) : mapUB m b2 := by
  intro p hp
  rcases h p hp with ⟨h1, h2⟩
  exact ⟨h1, by omega⟩

theorem mem_assocSet (m : List (String × Nat)) (k : String) (v : Nat)
    (p : String × Nat) (hp : p ∈ assocSet m k v) :
    p = (k, v) ∨ p ∈ m := by
  induction m with
  | nil =>
    simp [assocSet] at hp
    exact Or.inl hp
  | cons q rest ih =>
    obtain ⟨k0, v0⟩ := q
    unfold assocSet at hp
    by_cases h : k0 = k
    · rw [if_pos h] at hp
      rcases List.mem_cons.mp hp with rfl | hp2
      · exact Or.inl (by rw [h])
      · exact Or.inr (List.mem_cons_of_mem _ hp2)
    · rw [if_neg h] at hp
      rcases List.mem_cons.mp hp with rfl | hp2
      · exact Or.inr (List.mem_cons_self _ _)
      · rcases ih hp2 with h1 | h1
        · exact Or.inl h1
        · exact Or.inr (List.mem_cons_of_mem _ h1)

theorem mapUB_assocSet (m : List (String × Nat)) (b : Nat) (k : String) (v : Nat)
    (h : mapUB m b) (hv1 : 1 ≤ v) (hvb : v ≤ b) : mapUB (assocSet m k v) b := by
  intro p hp
  rcases mem_assocSet m k v p hp with rfl | hp2
  · exact ⟨hv1, hvb⟩
  · exact h p hp2

theorem mapInj_assocSet (m : List (String × Nat)) (b : Nat) (k : String) (v : Nat)
    (hinj : mapInj m) (hub : mapUB m b) (hfresh : b < v) :
    mapInj (assocSet m k v) := by
  intro p hp q hq heq
  rcases mem_assocSet m k v p hp with rfl | hp2 <;>
    rcases mem_assocSet m k v q hq with rfl | hq2
  · rfl
  · exact absurd heq (by have := (hub q hq2).2; simp only; omega)
  · exact absurd heq (by have := (hub p hp2).2; simp only; omega)
  · exact hinj p hp2 q hq2 heq

/-! ## Lemmas: `readHeaders` and `ensure_headers` invariants -/

theorem readHeadersAux_inv (s : Sheet) (n : Nat) :
    ∀ (a : Nat) (m : List (String × Nat)) (b : Nat), 1 ≤ a → b < a →
    mapUB m b → mapInj m →
    mapUB (readHeadersAux s (List.range' a n) m) (a + n - 1) ∧
      mapInj (readHeadersAux s (List.range' a n) m) := by
  induction n with
  | zero =>
    intro a m b ha hb hub hinj
    simp only [List.range'_zero, readHeadersAux]
    exact ⟨mapUB_mono m b (a - 1) hub (by omega), hinj⟩
  | succ k ih =>
    intro a m b ha hb hub hinj
    rw [List.range'_succ]
    have harith : a + 1 + k - 1 = a + (k + 1) - 1 := by omega
    simp only [readHeadersAux]
    cases hv : cellAt s 1 a with
    | vStr t =>
      dsimp only
      by_cases ht : pyStrip t ≠ ""
      · rw [if_pos ht]
        have h1 := ih (a + 1) (assocSet m (pyStrip t) a) a (by omega) (by omega)
          (mapUB_assocSet m a (pyStrip t) a (mapUB_mono m b a hub (by omega)) ha le_rfl)
          (mapInj_assocSet m b (pyStrip t) a hinj hub hb)
        rw [harith] at h1
        exact h1
      · rw [if_neg ht]
        have h1 := ih (a + 1) m b (by omega) (by omega) hub hinj
        rw [harith] at h1
        exact ⟨mapUB_mono _ _ _ h1.1 le_rfl, h1.2⟩
    | vNone =>
      dsimp only
      have h1 := ih (a + 1) m b (by omega) (by omega) hub hinj
      rw [harith] at h1
      exact h1
    | vInt n2 =>
      dsimp only
      have h1 := ih (a + 1) m b (by omega) (by omega) hub hinj
      rw [harith] at h1
      exact h1

theorem readHeaders_inv (s : Sheet) :
    mapUB (readHeaders s) (maxCol s) ∧ mapInj (readHeaders s) := by
  have h := readHeadersAux_inv s (maxCol s) 1 [] 0 le_rfl Nat.zero_lt_one
    (by intro p hp; simp at hp) (by intro p hp; simp at hp)
  have : 1 + maxCol s - 1 = maxCol s := by omega
  rw [this] at h
  exact h

theorem ensureAux_inv (needed : List String) :
    ∀ (m : List (String × Nat)) (mc : Nat) (s : Sheet),
    mapUB m mc → mapInj m → mc = maxCol s →
    mapUB (ensureAux needed m mc s).1 (ensureAux needed m mc s).2.1 ∧
      mapInj (ensureAux needed m mc s).1 ∧
      mc ≤ (ensureAux needed m mc s).2.1 ∧
      (ensureAux needed m mc s).2.1 = maxCol (ensureAux needed m mc s).2.2 ∧
      maxRow (ensureAux needed m mc s).2.2 = maxRow s := by
  induction needed with
  | nil =>
    intro m mc s hub hinj hmc
    exact ⟨hub, hinj, le_rfl, hmc, rfl⟩
  | cons h hs ih =>
    intro m mc s hub hinj hmc
    simp only [ensureAux]
    cases hl : List.lookup h m with
    | some v => exact ih m mc s hub hinj hmc
    | none =>
      dsimp only
      have hmc2 : mc + 1 = maxCol (setCell s 1 (mc + 1) (.vStr h)) := by
        rw [maxCol_setCell s 1 (mc + 1) _ (by omega)]
        omega
      have hmr : maxRow (setCell s 1 (mc + 1) (.vStr h)) = maxRow s := by
        rw [maxRow_setCell s 1 (mc + 1) _ le_rfl]
        have : 1 ≤ maxRow s := by unfold maxRow; omega
        omega
      have h1 := ih (assocSet m h (mc + 1)) (mc + 1) (setCell s 1 (mc + 1) (.vStr h))
        (mapUB_assocSet m (mc + 1) h (mc + 1)
          (mapUB_mono m mc (mc + 1) hub (by omega)) (by omega) le_rfl)
        (mapInj_assocSet m mc h (mc + 1) hinj hub (by omega))
        hmc2
      refine ⟨h1.1, h1.2.1, ?_, h1.2.2.2.1, ?_⟩
      · have := h1.2.2.1
        omega
      · rw [h1.2.2.2.2, hmr]

theorem ensureAux_lookup_mono (needed : List String) :
    ∀ (m : List (String × Nat)) (mc : Nat) (s : Sheet) (k : String) (v : Nat),
    List.lookup k m = some v →
    List.lookup k (ensureAux needed m mc s).1 = some v := by
  induction needed with
  | nil => intro m mc s k v hk; exact hk
  | cons h hs ih =>
    intro m mc s k v hk
    simp only [ensureAux]
    cases hl : List.lookup h m with
    | some w => exact ih m mc s k v hk
    | none =>
      dsimp only
      have hne : k ≠ h := by
        intro heq
        rw [heq, hl] at hk
        exact Option.noConfusion hk
      exact ih _ _ _ k v (by rw [lookup_assocSet_ne m h (mc + 1) k hne]; exact hk)

theorem ensureAux_lookup_present (needed : List String) :
    ∀ (m : List (String × Nat)) (mc : Nat) (s : Sheet) (k : String), k ∈ needed →
    ∃ v, List.lookup k (ensureAux needed m mc s).1 = some v := by
  induction needed with
  | nil => intro m mc s k hk; simp at hk
  | cons h hs ih =>
    intro m mc s k hk
    simp only [ensureAux]
    cases hl : List.lookup h m with
    | some w =>
      dsimp only
      rcases List.mem_cons.mp hk with rfl | hk2
      · exact ⟨w, ensureAux_lookup_mono hs m mc s k w hl⟩
      · exact ih m mc s k hk2
    | none =>
      dsimp only
      rcases List.mem_cons.mp hk with rfl | hk2
      · exact ⟨mc + 1, ensureAux_lookup_mono hs _ _ _ k (mc + 1)
          (lookup_assocSet_self m k (mc + 1))⟩
      · exact ih _ _ _ k hk2

theorem ensureAux_cell_preserve (needed : List String) :
    ∀ (m : List (String × Nat)) (mc : Nat) (s : Sheet) (r c : Nat),
    maxCol s ≤ mc → (2 ≤ r ∨ (1 ≤ c ∧ c ≤ mc)) →
    cellAt (ensureAux needed m mc s).2.2 r c = cellAt s r c := by
  induction needed with
  | nil => intro m mc s r c hmc hrc; rfl
  | cons h hs ih =>
    intro m mc s r c hmc hrc
    simp only [ensureAux]
    cases hl : List.lookup h m with
    | some w => exact ih m mc s r c hmc hrc
    | none =>
      dsimp only
      have hpres : cellAt (setCell s 1 (mc + 1) (.vStr h)) r c = cellAt s r c := by
        apply cellAt_setCell_ne
        rcases hrc with hr | ⟨hc1, hc2⟩
        · left; omega
        · right; omega
      rw [ih _ _ _ r c (by rw [maxCol_setCell s 1 (mc + 1) _ (by omega)]; omega)
        (by rcases hrc with hr | ⟨hc1, hc2⟩; exact Or.inl hr; exact Or.inr ⟨hc1, by omega⟩)]
      exact hpres

theorem ensure_headers_inv (s : Sheet) (needed : List String) :
    mapUB (ensure_headers s needed).1 (maxCol (ensure_headers s needed).2) ∧
      mapInj (ensure_headers s needed).1 ∧
      maxCol s ≤ maxCol (ensure_headers s needed).2 ∧
      maxRow (ensure_headers s needed).2 = maxRow s := by
  have hr := readHeaders_inv s
  have h := ensureAux_inv needed (readHeaders s) (maxCol s) s hr.1 hr.2 rfl
  unfold ensure_headers
  refine ⟨?_, h.2.1, ?_, h.2.2.2.2⟩
  · rw [← h.2.2.2.1]
    exact h.1
  · rw [← h.2.2.2.1]
    exact h.2.2.1

theorem ensure_lookup_bounds (s : Sheet) (needed : List String) (k : String) (v : Nat)
    (h : List.lookup k (ensure_headers s needed).1 = some v) :
    1 ≤ v ∧ v ≤ maxCol (ensure_headers s needed).2 :=
  (ensure_headers_inv s needed).1 (k, v) (lookup_mem _ k v h)

theorem imageColOf_pos (s : Sheet) : 1 ≤ imageColOf s := by
  unfold imageColOf
  cases hl : List.lookup IMAGE_HEADER (ensure_headers s [TITLE_HEADER, IMAGE_HEADER]).1 with
  | none => simp
  | some v =>
    simpa using (ensure_lookup_bounds s _ IMAGE_HEADER v hl).1

/-! ## Lemmas: the row loop touches only what its guards allow -/

theorem cellAt_congr_row (s : Sheet) (r0 r c : Nat) (h : r0 - 1 = r - 1) :
    cellAt s r0 c = cellAt s r c := by
  unfold cellAt
  rw [h]

theorem processRowsAux_preserve_nonblank (resolve : String → Option String)
    (m : List (String × Nat)) (tc ic : Nat) (rs : List Nat) :
    ∀ (s : Sheet) (r : Nat), nonblank (cellAt s r ic) = true →
    cellAt (processRowsAux resolve m tc ic rs s).1 r ic = cellAt s r ic := by
  induction rs with
  | nil => intro s r hnb; rfl
  | cons r0 rs ih =>
    intro s r hnb
    simp only [processRowsAux]
    by_cases h1 : nonblank (cellAt s r0 tc) = false
    · rw [if_pos h1]
      exact ih s r hnb
    · rw [if_neg h1]
      by_cases h2 : nonblank (cellAt s r0 ic) = true

      · rw [if_pos h2]
        exact ih s r hnb
      · rw [if_neg h2]
        cases hres : resolve (build_query (pyStr (cellAt s r0 tc)) (optionalVals s r0 m)) with
        | none => exact ih s r hnb
        | some url =>
          dsimp only
          have hrow : r - 1 ≠ r0 - 1 := by
            intro heq
            rw [← cellAt_congr_row s r0 r ic heq.symm] at hnb
            exact h2 hnb
          have hpres : cellAt (setCell s r0 ic (.vStr url)) r ic = cellAt s r ic :=
            cellAt_setCell_ne s r0 ic _ r ic (Or.inl hrow)
          rw [ih (setCell s r0 ic (.vStr url)) r (by rw [hpres]; exact hnb), hpres]

theorem processRowsAux_cell_ne_col (resolve : String → Option String)
    (m : List (String × Nat)) (tc ic : Nat) (rs : List Nat) :
    ∀ (s : Sheet) (r c : Nat), 1 ≤ c → 1 ≤ ic → c ≠ ic →
    cellAt (processRowsAux resolve m tc ic rs s).1 r c = cellAt s r c := by
  induction rs with
  | nil => intro s r c _ _ _; rfl
  | cons r0 rs ih =>
    intro s r c hc hic hne
    simp only [processRowsAux]
    by_cases h1 : nonblank (cellAt s r0 tc) = false
    · rw [if_pos h1]
      exact ih s r c hc hic hne
    · rw [if_neg h1]
      by_cases h2 : nonblank (cellAt s r0 ic) = true
      · rw [if_pos h2]
        exact ih s r c hc hic hne
      · rw [if_neg h2]
        cases hres : resolve (build_query (pyStr (cellAt s r0 tc)) (optionalVals s r0 m)) with
        | none => exact ih s r c hc hic hne
        | some url =>
          dsimp only
          have hpres : cellAt (setCell s r0 ic (.vStr url)) r c = cellAt s r c :=
            cellAt_setCell_ne s r0 ic _ r c (Or.inr (by omega))
          rw [ih (setCell s r0 ic (.vStr url)) r c hc hic hne, hpres]

/-! ## Claim theorems: C1 and C9 -/

/-- C1 (corrected).  A target cell whose value is Python-truthy AND
renders to a non-blank string (the source's `existing and
str(existing).strip()`) is never written during the pass: its value after
`processSheet` equals its value before, regardless of the resolution
outcome.  (Mere "non-blank after trimming" is not enough — see the
counterexample with the integer 0.) -/
theorem c1_no_overwrite (resolve : String → Option String) (s : Sheet) (r : Nat)
    (h : nonblank (cellAt s r (imageColOf s)) = true) :
    cellAt (processSheet resolve s).1 r (imageColOf s) = cellAt s r (imageColOf s) := by
  have hicle : imageColOf s ≤ maxCol s := by
    by_contra hgt
    rw [cellAt_beyond_col s r _ (by omega)] at h
    simp [nonblank, pyTruthy] at h
  have hic1 : 1 ≤ imageColOf s := imageColOf_pos s
  have hpres1 : cellAt (ensure_headers s [TITLE_HEADER, IMAGE_HEADER]).2 r (imageColOf s)
      = cellAt s r (imageColOf s) := by
    unfold ensure_headers
    exact ensureAux_cell_preserve _ _ _ _ r _ le_rfl (Or.inr ⟨hic1, hicle⟩)
  have h2 : nonblank (cellAt (ensure_headers s [TITLE_HEADER, IMAGE_HEADER]).2 r
      (imageColOf s)) = true := by
    rw [hpres1]; exact h
  show cellAt (processRowsAux resolve (ensure_headers s [TITLE_HEADER, IMAGE_HEADER]).1
      ((List.lookup TITLE_HEADER (ensure_headers s [TITLE_HEADER, IMAGE_HEADER]).1).getD 1)
      (imageColOf s)
      (List.range' 2 (maxRow (ensure_headers s [TITLE_HEADER, IMAGE_HEADER]).2 - 1))
      (ensure_headers s [TITLE_HEADER, IMAGE_HEADER]).2).1 r (imageColOf s)
    = cellAt s r (imageColOf s)
  rw [processRowsAux_preserve_nonblank resolve _ _ _ _ _ r h2, hpres1]

/-- C1 witness: a row whose Image cell holds a non-empty URL string is
untouched by a pass whose resolver would find a different URL. -/
theorem c1_no_overwrite_witness :
    nonblank (cellAt mixedSheet 2 (imageColOf mixedSheet)) = true ∧
    cellAt (processSheet constResolve mixedSheet).1 2 (imageColOf mixedSheet)
      = cellAt mixedSheet 2 (imageColOf mixedSheet) :=
  ⟨by decide, c1_no_overwrite constResolve mixedSheet 2 (by decide)⟩

/-- C1 counterexample.  The Image cell of row 2 holds the integer 0: its
trimmed string rendering `"0"` is non-blank, so the claim says it is never
overwritten; but `0` is Python-falsy, the guard `existing and
str(existing).strip()` fails, and the pass overwrites the cell. -/
theorem c1_counterexample :
    pyStrip (pyStr (cellAt zeroImageSheet 2 2)) = "0" ∧
    pyStrip (pyStr (cellAt zeroImageSheet 2 2)) ≠ "" ∧
    imageColOf zeroImageSheet = 2 ∧
    cellAt (processSheet constResolve zeroImageSheet).1 2 2
      = .vStr "http://img.example/x.jpg" ∧
    cellAt (processSheet constResolve zeroImageSheet).1 2 2
      ≠ cellAt zeroImageSheet 2 2 := by
  decide

/-- C9 (corrected).  Header-ensure runs once before the rows; a needed
header absent from row 1 is appended in order (primary then target) in the
column right after the sheet-wide `ws.max_column` — which is the column
after the last populated header only when no data row is wider than the
header row — and every write of the row loop lands in the returned target
column. -/
theorem c9_header_ensure (s : Sheet) (resolve : String → Option String)
    (himg : List.lookup IMAGE_HEADER (readHeaders s) = none) :
    (List.lookup IMAGE_HEADER (ensure_headers s [TITLE_HEADER, IMAGE_HEADER]).1
      = some (if List.lookup TITLE_HEADER (readHeaders s) = none
          then maxCol s + 2 else maxCol s + 1)) ∧
    (List.lookup TITLE_HEADER (readHeaders s) = none →
      List.lookup TITLE_HEADER (ensure_headers s [TITLE_HEADER, IMAGE_HEADER]).1
        = some (maxCol s + 1)) ∧
    (∀ r c, 1 ≤ c → c ≠ imageColOf s →
      cellAt (processSheet resolve s).1 r c
        = cellAt (ensure_headers s [TITLE_HEADER, IMAGE_HEADER]).2 r c) := by
  have hTI : TITLE_HEADER ≠ IMAGE_HEADER := by decide
  have hIT : IMAGE_HEADER ≠ TITLE_HEADER := by decide
  refine ⟨?_, ?_, ?_⟩
  · unfold ensure_headers
    simp only [ensureAux]
    cases hT : List.lookup TITLE_HEADER (readHeaders s) with
    | some w =>
      dsimp only
      rw [himg]
      dsimp only [ensureAux]
      rw [if_neg (by simp [hT])]
      exact lookup_assocSet_self _ _ _
    | none =>
      dsimp only
      rw [lookup_assocSet_ne _ _ _ _ hIT, himg]
      dsimp only [ensureAux]
      rw [if_pos rfl]
      exact lookup_assocSet_self _ _ _
  · intro hT
    unfold ensure_headers
    simp only [ensureAux]
    rw [hT]
    dsimp only
    rw [lookup_assocSet_ne _ _ _ _ hIT, himg]
    dsimp only [ensureAux]
    rw [lookup_assocSet_ne _ _ _ _ hTI]
    exact lookup_assocSet_self _ _ _
  · intro r c hc hne
    show cellAt (processRowsAux resolve (ensure_headers s [TITLE_HEADER, IMAGE_HEADER]).1
        ((List.lookup TITLE_HEADER (ensure_headers s [TITLE_HEADER, IMAGE_HEADER]).1).getD 1)
        (imageColOf s)
        (List.range' 2 (maxRow (ensure_headers s [TITLE_HEADER, IMAGE_HEADER]).2 - 1))
        (ensure_headers s [TITLE_HEADER, IMAGE_HEADER]).2).1 r c
      = cellAt (ensure_headers s [TITLE_HEADER, IMAGE_HEADER]).2 r c
    exact processRowsAux_cell_ne_col resolve _ _ _ _ _ r c hc (imageColOf_pos s) hne

/-- C9 witness: on the sheet lacking the Image header (with a wide data
row), the Image column is created at index 4 = max_column + 1 and a cell
outside the Image column is untouched by the pass. -/
theorem c9_header_ensure_witness :
    (List.lookup IMAGE_HEADER (ensure_headers wideSheet [TITLE_HEADER, IMAGE_HEADER]).1
      = some (if List.lookup TITLE_HEADER (readHeaders wideSheet) = none
          then maxCol wideSheet + 2 else maxCol wideSheet + 1)) ∧
    cellAt (processSheet constResolve wideSheet).1 2 1
      = cellAt (ensure_headers wideSheet [TITLE_HEADER, IMAGE_HEADER]).2 2 1 := by
  have h := c9_header_ensure wideSheet constResolve (by decide)
  exact ⟨h.1, h.2.2 2 1 (by decide) (by decide)⟩

/-- C9 counterexample.  On `wideSheet` the last populated header is in
column 1, so the claim's "appended immediately after the last populated
header" demands column 2; the code appends at `ws.max_column + 1 = 4`. -/
theorem c9_counterexample :
    lastPopulatedHeaderCol wideSheet = 1 ∧
    List.lookup IMAGE_HEADER (ensure_headers wideSheet [TITLE_HEADER, IMAGE_HEADER]).1
      = some 4 ∧
    (4 : Nat) ≠ lastPopulatedHeaderCol wideSheet + 1 := by
  decide

/-! ## Claim theorems: C5 -/

/-- C5 (corrected).  A missing input workbook makes every script print the
cause and RETURN from `main`: the process exits with status ZERO and
nothing is loaded, mutated or saved.  A missing google credential raises
before the workbook is loaded — exit 1, no mutation.  The pixabay key is
only checked inside `pixabay_first_image_url`, i.e. per resolution call
(per row), not at startup.  With inputs present the runs exit zero, also
when zero rows were filled. -/
theorem c5_startup (resolve : String → Option String) (wb : List Sheet) :
    mainBing resolve none = (0, none) ∧
    (∀ cred, mainGoogle resolve cred none = (0, none)) ∧
    mainGoogle resolve none (some wb) = (1, none) ∧
    (∀ (search : String → Option (List (Option String))) (live : String → Bool)
        (q : String), pixabay_first_image_url "" search live q = .error ()) ∧
    (mainBing resolve (some wb)).1 = 0 ∧
    (∀ kc : String × String, (mainGoogle resolve (some kc) (some wb)).1 = 0) := by
  refine ⟨rfl, fun cred => ?_, rfl, fun search live q => rfl, rfl, fun kc => rfl⟩
  cases cred <;> rfl

/-- C5 counterexample.  The claim requires a non-zero exit status when the
input workbook cannot be located; the bing script's `main` prints
`[!] Input workbook not found` and returns normally — the process exits
with status 0. -/
theorem c5_counterexample :
    mainBing (fun _ => none) none = (0, none) ∧
    (mainBing (fun _ => none) none).1 = 0 ∧
    pixabay_first_image_url "" (fun _ => some []) (fun _ => true) "Shirt"
      = .error () := by
  exact ⟨rfl, rfl, rfl⟩

/-! ## Lemmas toward idempotence (C8) -/

theorem processRowsAux_maxCol (resolve : String → Option String)
    (m : List (String × Nat)) (tc ic : Nat) (hic : 1 ≤ ic) (rs : List Nat) :
    ∀ s : Sheet, ic ≤ maxCol s →
    maxCol (processRowsAux resolve m tc ic rs s).1 = maxCol s := by
  induction rs with
  | nil => intro s _; rfl
  | cons r0 rs ih =>
    intro s hle
    simp only [processRowsAux]
    by_cases h1 : nonblank (cellAt s r0 tc) = false
    · rw [if_pos h1]; exact ih s hle
    · rw [if_neg h1]
      by_cases h2 : nonblank (cellAt s r0 ic) = true
      · rw [if_pos h2]; exact ih s hle
      · rw [if_neg h2]
        cases hres : resolve (build_query (pyStr (cellAt s r0 tc)) (optionalVals s r0 m)) with
        | none => exact ih s hle
        | some url =>
          dsimp only
          have hmc : maxCol (setCell s r0 ic (.vStr url)) = maxCol s := by
            rw [maxCol_setCell s r0 ic _ hic]; omega
          rw [ih (setCell s r0 ic (.vStr url)) (by omega), hmc]

theorem processRowsAux_maxRow (resolve : String → Option String)
    (m : List (String × Nat)) (tc ic : Nat) (rs : List Nat) :
    ∀ s : Sheet, (∀ r0 ∈ rs, 1 ≤ r0 ∧ r0 ≤ maxRow s) →
    maxRow (processRowsAux resolve m tc ic rs s).1 = maxRow s := by
  induction rs with
  | nil => intro s _; rfl
  | cons r0 rs ih =>
    intro s hb
    have hb0 := hb r0 (List.mem_cons_self _ _)
    simp only [processRowsAux]
    by_cases h1 : nonblank (cellAt s r0 tc) = false
    · rw [if_pos h1]; exact ih s (fun r hr => hb r (List.mem_cons_of_mem _ hr))
    · rw [if_neg h1]
      by_cases h2 : nonblank (cellAt s r0 ic) = true
      · rw [if_pos h2]; exact ih s (fun r hr => hb r (List.mem_cons_of_mem _ hr))
      · rw [if_neg h2]
        cases hres : resolve (build_query (pyStr (cellAt s r0 tc)) (optionalVals s r0 m)) with
        | none => exact ih s (fun r hr => hb r (List.mem_cons_of_mem _ hr))
        | some url =>
          dsimp only
          have hmr : maxRow (setCell s r0 ic (.vStr url)) = maxRow s := by
            rw [maxRow_setCell s r0 ic _ hb0.1]; omega
          rw [ih (setCell s r0 ic (.vStr url)) (fun r hr => by
            rw [hmr]; exact hb r (List.mem_cons_of_mem _ hr)), hmr]

theorem processRowsAux_row1 (resolve : String → Option String)
    (m : List (String × Nat)) (tc ic : Nat) (rs : List Nat) :
    ∀ (s : Sheet) (c : Nat), (∀ r0 ∈ rs, 2 ≤ r0) →
    cellAt (processRowsAux resolve m tc ic rs s).1 1 c = cellAt s 1 c := by
  induction rs with
  | nil => intro s c _; rfl
  | cons r0 rs ih =>
    intro s c hb
    have hb0 := hb r0 (List.mem_cons_self _ _)
    simp only [processRowsAux]
    by_cases h1 : nonblank (cellAt s r0 tc) = false
    · rw [if_pos h1]; exact ih s c (fun r hr => hb r (List.mem_cons_of_mem _ hr))
    · rw [if_neg h1]
      by_cases h2 : nonblank (cellAt s r0 ic) = true
      · rw [if_pos h2]; exact ih s c (fun r hr => hb r (List.mem_cons_of_mem _ hr))
      · rw [if_neg h2]
        cases hres : resolve (build_query (pyStr (cellAt s r0 tc)) (optionalVals s r0 m)) with
        | none => exact ih s c (fun r hr => hb r (List.mem_cons_of_mem _ hr))
        | some url =>
          dsimp only
          have hpres : cellAt (setCell s r0 ic (.vStr url)) 1 c = cellAt s 1 c :=
            cellAt_setCell_ne s r0 ic _ 1 c (Or.inl (by omega))
          rw [ih (setCell s r0 ic (.vStr url)) c
            (fun r hr => hb r (List.mem_cons_of_mem _ hr)), hpres]

theorem optionalVals_congr (s s2 : Sheet) (r : Nat) (m : List (String × Nat))
    (h : ∀ nm ∈ OPTIONAL_QUERY_COLUMNS, ∀ j, List.lookup nm m = some j →
      cellAt s r j = cellAt s2 r j) :
    optionalVals s r m = optionalVals s2 r m := by
  simp only [optionalVals, OPTIONAL_QUERY_COLUMNS]
  simp only [List.filterMap_cons, List.filterMap_nil]
  cases hB : List.lookup "Brand" m with
  | none =>
    cases hR : List.lookup "Region" m with
    | none => rfl
    | some jR =>
      dsimp only
      rw [h "Region" (by simp [OPTIONAL_QUERY_COLUMNS]) jR hR]
  | some jB =>
    cases hR : List.lookup "Region" m with
    | none =>
      dsimp only
      rw [h "Brand" (by simp [OPTIONAL_QUERY_COLUMNS]) jB hB]
    | some jR =>
      dsimp only
      rw [h "Brand" (by simp [OPTIONAL_QUERY_COLUMNS]) jB hB,
        h "Region" (by simp [OPTIONAL_QUERY_COLUMNS]) jR hR]

theorem pyStrip_ne_empty_of (u : String) (h : pyStrip u ≠ "") : u ≠ "" := by
  intro hu
  subst hu
  exact h rfl

theorem nonblank_vStr_of_strip (url : String) (h : pyStrip url ≠ "") :
    nonblank (.vStr url) = true := by
  have h2 := pyStrip_ne_empty_of url h
  simp [nonblank, pyTruthy, pyStr, h, h2]

/-- After one pass of the row loop over distinct data rows, (frame) only
cells in the target column of listed rows changed, (stability) every
listed row is one the loop would no longer write, and (count) the skipped
counter is the number of listed rows with a blank title, as read in the
starting sheet. -/
theorem processRowsAux_post (resolve : String → Option String)
    (m : List (String × Nat)) (tc ic : Nat)
    (htc1 : 1 ≤ tc) (hic1 : 1 ≤ ic) (htcic : tc ≠ ic)
    (haux : ∀ nm ∈ OPTIONAL_QUERY_COLUMNS, ∀ j, List.lookup nm m = some j →
      1 ≤ j ∧ j ≠ ic)
    (hurl : ∀ q u, resolve q = some u → pyStrip u ≠ "")
    (rs : List Nat) :
    ∀ s : Sheet, rs.Nodup → (∀ r0 ∈ rs, 2 ≤ r0) →
    ((∀ r c, 1 ≤ r → 1 ≤ c → (c ≠ ic ∨ r ∉ rs) →
        cellAt (processRowsAux resolve m tc ic rs s).1 r c = cellAt s r c) ∧
      (∀ r0 ∈ rs, rowStable resolve m tc ic (processRowsAux resolve m tc ic rs s).1 r0) ∧
      (processRowsAux resolve m tc ic rs s).2.2
        = (rs.filter (fun r0 => !nonblank (cellAt s r0 tc))).length) := by
  induction rs with
  | nil =>
    intro s _ _
    refine ⟨fun r c _ _ _ => rfl, fun r0 hr0 => absurd hr0 (List.not_mem_nil r0), rfl⟩
  | cons r0 rs ih =>
    intro s hnd hpos
    obtain ⟨hr0nm, hnd2⟩ := List.nodup_cons.mp hnd
    have hpos0 : 2 ≤ r0 := hpos r0 (List.mem_cons_self _ _)
    have hpos2 : ∀ r ∈ rs, 2 ≤ r := fun r hr => hpos r (List.mem_cons_of_mem _ hr)
    simp only [processRowsAux]
    by_cases h1 : nonblank (cellAt s r0 tc) = false
    · rw [if_pos h1]
      obtain ⟨ihf, ihs, ihk⟩ := ih s hnd2 hpos2
      refine ⟨?_, ?_, ?_⟩
      · intro r c hr hc hcond
        refine ihf r c hr hc ?_
        rcases hcond with hc2 | hr2
        · exact Or.inl hc2
        · exact Or.inr (fun hmem => hr2 (List.mem_cons_of_mem _ hmem))
      · intro r1 hr1
        rcases List.mem_cons.mp hr1 with rfl | hr2
        · left
          rw [ihf r1 tc (by omega) htc1 (Or.inl htcic)]
          exact h1
        · exact ihs r1 hr2
      · dsimp only
        rw [List.filter_cons, if_pos (by simp [h1]), List.length_cons, ihk]
    · rw [if_neg h1]
      have h1t : nonblank (cellAt s r0 tc) = true := by
        cases hx : nonblank (cellAt s r0 tc)
        · exact absurd hx h1
        · rfl
      by_cases h2 : nonblank (cellAt s r0 ic) = true
      · rw [if_pos h2]
        obtain ⟨ihf, ihs, ihk⟩ := ih s hnd2 hpos2
        refine ⟨?_, ?_, ?_⟩
        · intro r c hr hc hcond
          refine ihf r c hr hc ?_
          rcases hcond with hc2 | hr2
          · exact Or.inl hc2
          · exact Or.inr (fun hmem => hr2 (List.mem_cons_of_mem _ hmem))
        · intro r1 hr1
          rcases List.mem_cons.mp hr1 with rfl | hr2
          · right; left
            rw [ihf r1 ic (by omega) hic1 (Or.inr hr0nm)]
            exact h2
          · exact ihs r1 hr2
        · rw [List.filter_cons, if_neg (by simp [h1t]), ihk]
      · rw [if_neg h2]
        cases hres : resolve (build_query (pyStr (cellAt s r0 tc)) (optionalVals s r0 m)) with
        | none =>
          obtain ⟨ihf, ihs, ihk⟩ := ih s hnd2 hpos2
          refine ⟨?_, ?_, ?_⟩
          · intro r c hr hc hcond
            refine ihf r c hr hc ?_
            rcases hcond with hc2 | hr2
            · exact Or.inl hc2
            · exact Or.inr (fun hmem => hr2 (List.mem_cons_of_mem _ hmem))
          · intro r1 hr1
            rcases List.mem_cons.mp hr1 with rfl | hr2
            · right; right
              have htitle : cellAt (processRowsAux resolve m tc ic rs s).1 r1 tc
                  = cellAt s r1 tc := ihf r1 tc (by omega) htc1 (Or.inl htcic)
              have hauxeq : optionalVals (processRowsAux resolve m tc ic rs s).1 r1 m
                  = optionalVals s r1 m := by
                refine optionalVals_congr _ _ _ _ ?_
                intro nm hnm j hj
                exact ihf r1 j (by omega) (haux nm hnm j hj).1 (Or.inl (haux nm hnm j hj).2)
              rw [htitle, hauxeq]
              exact hres
            · exact ihs r1 hr2
          · rw [List.filter_cons, if_neg (by simp [h1t]), ihk]
        | some url =>
          dsimp only
          have hstrip : pyStrip url ≠ "" := hurl _ url hres
          obtain ⟨ihf, ihs, ihk⟩ := ih (setCell s r0 ic (.vStr url)) hnd2 hpos2
          have hcells : ∀ r c, 1 ≤ r → 1 ≤ c → (c ≠ ic ∨ r ≠ r0) →
              cellAt (setCell s r0 ic (.vStr url)) r c = cellAt s r c := by
            intro r c hr hc hcond
            apply cellAt_setCell_ne
            rcases hcond with hc2 | hr2
            · right; omega
            · left; omega
          refine ⟨?_, ?_, ?_⟩
          · intro r c hr hc hcond
            have hcond2 : (c ≠ ic ∨ r ∉ rs) := by
              rcases hcond with hc2 | hr2
              · exact Or.inl hc2
              · exact Or.inr (fun hmem => hr2 (List.mem_cons_of_mem _ hmem))
            rw [ihf r c hr hc hcond2]
            refine hcells r c hr hc ?_
            rcases hcond with hc2 | hr2
            · exact Or.inl hc2
            · exact Or.inr (fun heq => hr2 (heq ▸ List.mem_cons_self _ _))
          · intro r1 hr1
            rcases List.mem_cons.mp hr1 with rfl | hr2
            · right; left
              rw [ihf r1 ic (by omega) hic1 (Or.inr hr0nm), cellAt_setCell_self]
              exact nonblank_vStr_of_strip url hstrip
            · exact ihs r1 hr2
          · rw [List.filter_cons, if_neg (by simp [h1t]), ihk]
            congr 1
            refine List.filter_congr ?_
            intro r hr
            rw [hcells r tc (by have := hpos2 r hr; omega) htc1 (Or.inl htcic)]

/-- On a sheet whose listed rows are all stable, the row loop is a no-op:
unchanged sheet, zero filled (zero writes), and the skipped counter counts
exactly the blank-title rows. -/
theorem processRowsAux_noop (resolve : String → Option String)
    (m : List (String × Nat)) (tc ic : Nat) (rs : List Nat) :
    ∀ s : Sheet, (∀ r0 ∈ rs, rowStable resolve m tc ic s r0) →
    processRowsAux resolve m tc ic rs s
      = (s, 0, (rs.filter (fun r0 => !nonblank (cellAt s r0 tc))).length) := by
  induction rs with
  | nil => intro s _; rfl
  | cons r0 rs ih =>
    intro s hst
    have hst0 := hst r0 (List.mem_cons_self _ _)
    have hst2 : ∀ r ∈ rs, rowStable resolve m tc ic s r :=
      fun r hr => hst r (List.mem_cons_of_mem _ hr)
    simp only [processRowsAux]
    by_cases h1 : nonblank (cellAt s r0 tc) = false
    · rw [if_pos h1, ih s hst2]
      rw [List.filter_cons, if_pos (by simp [h1]), List.length_cons]
    · rw [if_neg h1]
      have h1t : nonblank (cellAt s r0 tc) = true := by
        cases hx : nonblank (cellAt s r0 tc)
        · exact absurd hx h1
        · rfl
      by_cases h2 : nonblank (cellAt s r0 ic) = true
      · rw [if_pos h2, ih s hst2]
        rw [List.filter_cons, if_neg (by simp [h1t])]
      · rw [if_neg h2]
        have hres : resolve (build_query (pyStr (cellAt s r0 tc)) (optionalVals s r0 m))
            = none := by
          rcases hst0 with hb | hi | hn
          · exact absurd hb h1
          · exact absurd hi h2
          · exact hn
        rw [hres, ih s hst2]
        rw [List.filter_cons, if_neg (by simp [h1t])]

/-! ## Lemmas: the header map regenerates from the written sheet -/

theorem readHeadersAux_append (s : Sheet) (l1 l2 : List Nat)
    (m : List (String × Nat)) :
    readHeadersAux s (l1 ++ l2) m = readHeadersAux s l2 (readHeadersAux s l1 m) := by
  induction l1 generalizing m with
  | nil => rfl
  | cons c cs ihc =>
    simp only [List.cons_append, readHeadersAux]
    cases cellAt s 1 c with
    | vStr t =>
      dsimp only
      by_cases ht : pyStrip t ≠ ""
      · rw [if_pos ht, if_pos ht]
        exact ihc _
      · rw [if_neg ht, if_neg ht]
        exact ihc m
    | vNone => exact ihc m
    | vInt n => exact ihc m

theorem readHeadersAux_congr (s s2 : Sheet) (cols : List Nat)
    (h : ∀ c ∈ cols, cellAt s 1 c = cellAt s2 1 c) :
    ∀ m, readHeadersAux s cols m = readHeadersAux s2 cols m := by
  induction cols with
  | nil => intro m; rfl
  | cons c cs ihc =>
    intro m
    have hc := h c (List.mem_cons_self _ _)
    have hcs : ∀ c2 ∈ cs, cellAt s 1 c2 = cellAt s2 1 c2 :=
      fun c2 hc2 => h c2 (List.mem_cons_of_mem _ hc2)
    simp only [readHeadersAux, hc]
    cases cellAt s2 1 c with
    | vStr t =>
      dsimp only
      by_cases ht : pyStrip t ≠ ""
      · rw [if_pos ht, if_pos ht]
        exact ihc hcs _
      · rw [if_neg ht, if_neg ht]
        exact ihc hcs m
    | vNone => exact ihc hcs m
    | vInt n => exact ihc hcs m

theorem readHeaders_eq_of (s s2 : Sheet) (hmc : maxCol s = maxCol s2)
    (hcells : ∀ c, 1 ≤ c → cellAt s 1 c = cellAt s2 1 c) :
    readHeaders s = readHeaders s2 := by
  unfold readHeaders
  rw [hmc]
  refine readHeadersAux_congr s s2 _ ?_ []
  intro c hc
  have : 1 ≤ c := by
    rcases List.mem_range'_1.mp hc with ⟨h1, _⟩
    omega
  exact hcells c this

theorem readHeaders_ensureAux (needed : List String)
    (hneed : ∀ h ∈ needed, pyStrip h = h ∧ h ≠ "") :
    ∀ (m : List (String × Nat)) (mc : Nat) (s : Sheet),
    mc = maxCol s → readHeaders s = m →
    readHeaders (ensureAux needed m mc s).2.2 = (ensureAux needed m mc s).1 := by
  induction needed with
  | nil => intro m mc s hmc hm; exact hm
  | cons h hs ihn =>
    intro m mc s hmc hm
    have hn0 := hneed h (List.mem_cons_self _ _)
    have hns : ∀ h2 ∈ hs, pyStrip h2 = h2 ∧ h2 ≠ "" :=
      fun h2 hh2 => hneed h2 (List.mem_cons_of_mem _ hh2)
    simp only [ensureAux]
    cases hl : List.lookup h m with
    | some w => exact ihn hns m mc s hmc hm
    | none =>
      dsimp only
      refine ihn hns _ _ _ ?_ ?_
      · rw [maxCol_setCell s 1 (mc + 1) _ (by omega)]
        omega
      · -- readHeaders of the sheet with header h written at column mc+1
        have hmc2 : maxCol (setCell s 1 (mc + 1) (.vStr h)) = mc + 1 := by
          rw [maxCol_setCell s 1 (mc + 1) _ (by omega)]
          omega
        unfold readHeaders
        rw [hmc2, List.range'_concat]
        rw [readHeadersAux_append]
        have hpre : readHeadersAux (setCell s 1 (mc + 1) (.vStr h))
            (List.range' 1 mc) [] = readHeadersAux s (List.range' 1 mc) [] := by
          refine readHeadersAux_congr _ _ _ ?_ []
          intro c hc
          rcases List.mem_range'_1.mp hc with ⟨hc1, hc2⟩
          exact cellAt_setCell_ne s 1 (mc + 1) _ 1 c (Or.inr (by omega))
        rw [hpre]
        have hrs : readHeadersAux s (List.range' 1 mc) [] = m := by
          have : List.range' 1 mc = List.range' 1 (maxCol s) := by rw [hmc]
          rw [this]
          exact hm
        rw [hrs]
        have hcell : cellAt (setCell s 1 (mc + 1) (.vStr h)) 1 (1 + 1 * mc)
            = .vStr h := by
          rw [show 1 + 1 * mc = mc + 1 by omega]
          exact cellAt_setCell_self s 1 (mc + 1) _
        simp only [readHeadersAux, hcell]
        rw [if_pos (by rw [hn0.1]; exact hn0.2), hn0.1]
        rw [show 1 + 1 * mc = mc + 1 by omega]

theorem readHeaders_ensure (s : Sheet) (needed : List String)
    (hneed : ∀ h ∈ needed, pyStrip h = h ∧ h ≠ "") :
    readHeaders (ensure_headers s needed).2 = (ensure_headers s needed).1 :=
  readHeaders_ensureAux needed hneed (readHeaders s) (maxCol s) s rfl rfl

theorem ensureAux_all_present (needed : List String) :
    ∀ (m : List (String × Nat)) (mc : Nat) (s : Sheet),
    (∀ k ∈ needed, (List.lookup k m).isSome) →
    ensureAux needed m mc s = (m, mc, s) := by
  induction needed with
  | nil => intro m mc s _; rfl
  | cons h hs ihn =>
    intro m mc s hall
    simp only [ensureAux]
    cases hl : List.lookup h m with
    | some w => exact ihn m mc s (fun k hk => hall k (List.mem_cons_of_mem _ hk))
    | none =>
      have := hall h (List.mem_cons_self _ _)
      rw [hl] at this
      exact absurd this (by simp)

theorem ensure_headers_of_read (X : Sheet) (needed : List String)
    (m : List (String × Nat)) (h : readHeaders X = m)
    (hpres : ∀ k ∈ needed, (List.lookup k m).isSome) :
    ensure_headers X needed = (m, X) := by
  unfold ensure_headers
  dsimp only
  rw [h, ensureAux_all_present needed m (maxCol X) X hpres]

theorem processSheet_eq (resolve : String → Option String) (s : Sheet) (vT vI : Nat)
    (hT : List.lookup TITLE_HEADER (ensure_headers s [TITLE_HEADER, IMAGE_HEADER]).1
      = some vT)
    (hI : List.lookup IMAGE_HEADER (ensure_headers s [TITLE_HEADER, IMAGE_HEADER]).1
      = some vI) :
    processSheet resolve s
      = processRowsAux resolve (ensure_headers s [TITLE_HEADER, IMAGE_HEADER]).1 vT vI
          (List.range' 2 (maxRow (ensure_headers s [TITLE_HEADER, IMAGE_HEADER]).2 - 1))
          (ensure_headers s [TITLE_HEADER, IMAGE_HEADER]).2 := by
  unfold processSheet
  dsimp only
  rw [hT, hI, Option.getD_some, Option.getD_some]

set_option maxHeartbeats 1000000 in
/-- One pass of `processSheet` makes the sheet a fixed point: a second
pass returns the sheet unchanged, fills zero rows (zero cell writes), and
reports the same skipped count (blank-title rows only). -/
theorem processSheet_idem (resolve : String → Option String)
    (hurl : ∀ q u, resolve q = some u → pyStrip u ≠ "") (s : Sheet) :
    (processSheet resolve (processSheet resolve s).1).1 = (processSheet resolve s).1 ∧
    (processSheet resolve (processSheet resolve s).1).2.1 = 0 ∧
    (processSheet resolve (processSheet resolve s).1).2.2
      = (processSheet resolve s).2.2 := by
  obtain ⟨vT, hlookT⟩ := ensureAux_lookup_present [TITLE_HEADER, IMAGE_HEADER]
    (readHeaders s) (maxCol s) s TITLE_HEADER (by simp)
  obtain ⟨vI, hlookI⟩ := ensureAux_lookup_present [TITLE_HEADER, IMAGE_HEADER]
    (readHeaders s) (maxCol s) s IMAGE_HEADER (by simp)
  have hlookT2 : List.lookup TITLE_HEADER
      (ensure_headers s [TITLE_HEADER, IMAGE_HEADER]).1 = some vT := hlookT
  have hlookI2 : List.lookup IMAGE_HEADER
      (ensure_headers s [TITLE_HEADER, IMAGE_HEADER]).1 = some vI := hlookI
  have hinv := ensure_headers_inv s [TITLE_HEADER, IMAGE_HEADER]
  have hTb := hinv.1 (TITLE_HEADER, vT) (lookup_mem _ _ _ hlookT2)
  have hIb := hinv.1 (IMAGE_HEADER, vI) (lookup_mem _ _ _ hlookI2)
  have htcic : vT ≠ vI := by
    intro heq
    have hnm := hinv.2.1 (TITLE_HEADER, vT) (lookup_mem _ _ _ hlookT2)
      (IMAGE_HEADER, vI) (lookup_mem _ _ _ hlookI2) heq
    simp only at hnm
    exact absurd hnm (by decide)
  have haux : ∀ nm ∈ OPTIONAL_QUERY_COLUMNS, ∀ j,
      List.lookup nm (ensure_headers s [TITLE_HEADER, IMAGE_HEADER]).1 = some j →
      1 ≤ j ∧ j ≠ vI := by
    intro nm hnm j hj
    refine ⟨(hinv.1 (nm, j) (lookup_mem _ _ _ hj)).1, ?_⟩
    intro heq
    have hname := hinv.2.1 (nm, j) (lookup_mem _ _ _ hj)
      (IMAGE_HEADER, vI) (lookup_mem _ _ _ hlookI2) heq
    simp only at hname
    simp only [OPTIONAL_QUERY_COLUMNS, List.mem_cons, List.mem_singleton,
      List.not_mem_nil, or_false] at hnm
    rcases hnm with rfl | rfl
    · exact absurd hname (by decide)
    · exact absurd hname (by decide)
  have hmr1 : 1 ≤ maxRow (ensure_headers s [TITLE_HEADER, IMAGE_HEADER]).2 := by
    unfold maxRow
    omega
  have hpos : ∀ r0 ∈ List.range' 2
      (maxRow (ensure_headers s [TITLE_HEADER, IMAGE_HEADER]).2 - 1), 2 ≤ r0 := by
    intro r0 hr0
    rcases List.mem_range'_1.mp hr0 with ⟨h1, _⟩
    omega
  have hbound : ∀ r0 ∈ List.range' 2
      (maxRow (ensure_headers s [TITLE_HEADER, IMAGE_HEADER]).2 - 1),
      r0 ≤ maxRow (ensure_headers s [TITLE_HEADER, IMAGE_HEADER]).2 := by
    intro r0 hr0
    rcases List.mem_range'_1.mp hr0 with ⟨_, h2⟩
    omega
  have hnd : (List.range' 2
      (maxRow (ensure_headers s [TITLE_HEADER, IMAGE_HEADER]).2 - 1)).Nodup :=
    List.nodup_range' _ _
  obtain ⟨Hf, Hs, Hk⟩ := processRowsAux_post resolve
    (ensure_headers s [TITLE_HEADER, IMAGE_HEADER]).1 vT vI hTb.1 hIb.1 htcic haux hurl
    (List.range' 2 (maxRow (ensure_headers s [TITLE_HEADER, IMAGE_HEADER]).2 - 1))
    (ensure_headers s [TITLE_HEADER, IMAGE_HEADER]).2 hnd hpos
  rw [processSheet_eq resolve s vT vI hlookT2 hlookI2]
  -- properties of the sheet after the first pass
  have hmc : maxCol (processRowsAux resolve
      (ensure_headers s [TITLE_HEADER, IMAGE_HEADER]).1 vT vI
      (List.range' 2 (maxRow (ensure_headers s [TITLE_HEADER, IMAGE_HEADER]).2 - 1))
      (ensure_headers s [TITLE_HEADER, IMAGE_HEADER]).2).1
      = maxCol (ensure_headers s [TITLE_HEADER, IMAGE_HEADER]).2 :=
    processRowsAux_maxCol resolve _ vT vI hIb.1 _ _ hIb.2
  have hmrow : maxRow (processRowsAux resolve
      (ensure_headers s [TITLE_HEADER, IMAGE_HEADER]).1 vT vI
      (List.range' 2 (maxRow (ensure_headers s [TITLE_HEADER, IMAGE_HEADER]).2 - 1))
      (ensure_headers s [TITLE_HEADER, IMAGE_HEADER]).2).1
      = maxRow (ensure_headers s [TITLE_HEADER, IMAGE_HEADER]).2 :=
    processRowsAux_maxRow resolve _ vT vI _ _
      (fun r0 hr0 => ⟨by have := hpos r0 hr0; omega, hbound r0 hr0⟩)
  have hrow1 : ∀ c, cellAt (processRowsAux resolve
      (ensure_headers s [TITLE_HEADER, IMAGE_HEADER]).1 vT vI
      (List.range' 2 (maxRow (ensure_headers s [TITLE_HEADER, IMAGE_HEADER]).2 - 1))
      (ensure_headers s [TITLE_HEADER, IMAGE_HEADER]).2).1 1 c
      = cellAt (ensure_headers s [TITLE_HEADER, IMAGE_HEADER]).2 1 c :=
    fun c => processRowsAux_row1 resolve _ vT vI _ _ c hpos
  have hrh : readHeaders (processRowsAux resolve
      (ensure_headers s [TITLE_HEADER, IMAGE_HEADER]).1 vT vI
      (List.range' 2 (maxRow (ensure_headers s [TITLE_HEADER, IMAGE_HEADER]).2 - 1))
      (ensure_headers s [TITLE_HEADER, IMAGE_HEADER]).2).1
      = (ensure_headers s [TITLE_HEADER, IMAGE_HEADER]).1 :=
    (readHeaders_eq_of _ (ensure_headers s [TITLE_HEADER, IMAGE_HEADER]).2 hmc
      (fun c _ => hrow1 c)).trans
      (readHeaders_ensure s [TITLE_HEADER, IMAGE_HEADER] (by decide))
  -- the second ensure_headers is the identity
  have hens2 : ensure_headers (processRowsAux resolve
      (ensure_headers s [TITLE_HEADER, IMAGE_HEADER]).1 vT vI
      (List.range' 2 (maxRow (ensure_headers s [TITLE_HEADER, IMAGE_HEADER]).2 - 1))
      (ensure_headers s [TITLE_HEADER, IMAGE_HEADER]).2).1 [TITLE_HEADER, IMAGE_HEADER]
      = ((ensure_headers s [TITLE_HEADER, IMAGE_HEADER]).1,
        (processRowsAux resolve
          (ensure_headers s [TITLE_HEADER, IMAGE_HEADER]).1 vT vI
          (List.range' 2 (maxRow (ensure_headers s [TITLE_HEADER, IMAGE_HEADER]).2 - 1))
          (ensure_headers s [TITLE_HEADER, IMAGE_HEADER]).2).1) := by
    refine ensure_headers_of_read _ _ _ hrh ?_
    intro k hk
    rcases List.mem_cons.mp hk with rfl | hk2
    · rw [hlookT2]; rfl
    · rcases List.mem_singleton.mp hk2 with rfl
      rw [hlookI2]; rfl
  have heq2 := processSheet_eq resolve (processRowsAux resolve
      (ensure_headers s [TITLE_HEADER, IMAGE_HEADER]).1 vT vI
      (List.range' 2 (maxRow (ensure_headers s [TITLE_HEADER, IMAGE_HEADER]).2 - 1))
      (ensure_headers s [TITLE_HEADER, IMAGE_HEADER]).2).1 vT vI
    (by rw [hens2]; exact hlookT2) (by rw [hens2]; exact hlookI2)
  rw [heq2, hens2]
  rw [hmrow]
  rw [processRowsAux_noop resolve _ vT vI _ _ Hs]
  refine ⟨rfl, rfl, ?_⟩
  rw [Hk]
  refine congrArg List.length (List.filter_congr ?_)
  intro r0 hr0
  rw [Hf r0 vT (by have := hpos r0 hr0; omega) hTb.1 (Or.inl htcic)]

/-- C8 (corrected).  Running the pipeline twice with the same provider
responses yields output identical to the first run's and a second run with
zero filled rows (zero cell writes) and the same skipped count; but the
previously filled rows are skipped WITHOUT being counted — the skipped
counter only ever counts blank-title rows.  (Hypothesis: every URL the
resolver yields is non-blank, as real candidate URLs are.) -/
theorem c8_idempotence (resolve : String → Option String)
    (hurl : ∀ q u, resolve q = some u → pyStrip u ≠ "") (wb : List Sheet) :
    (processWorkbook resolve (processWorkbook resolve wb).1).1
      = (processWorkbook resolve wb).1 ∧
    (processWorkbook resolve (processWorkbook resolve wb).1).2.1 = 0 ∧
    (processWorkbook resolve (processWorkbook resolve wb).1).2.2
      = (processWorkbook resolve wb).2.2 := by
  induction wb with
  | nil => exact ⟨rfl, rfl, rfl⟩
  | cons sh rest ih =>
    have hs := processSheet_idem resolve hurl sh
    simp only [processWorkbook]
    refine ⟨?_, ?_, ?_⟩
    · simp only [hs.1, ih.1]
    · simp only [hs.2.1, ih.2.1]
    · simp only [hs.2.2, ih.2.2]

/-- C8 witness: a concrete one-sheet workbook (one pre-filled row, one
fillable row, one blank-title row) run twice with a constant resolver. -/
theorem c8_idempotence_witness :
    (processWorkbook constResolve (processWorkbook constResolve [mixedSheet]).1).1
      = (processWorkbook constResolve [mixedSheet]).1 ∧
    (processWorkbook constResolve (processWorkbook constResolve [mixedSheet]).1).2.1
      = 0 ∧
    (processWorkbook constResolve (processWorkbook constResolve [mixedSheet]).1).2.2
      = (processWorkbook constResolve [mixedSheet]).2.2 :=
  c8_idempotence constResolve
    (fun q u h => by
      simp only [constResolve] at h
      rw [← Option.some.inj h]
      decide) [mixedSheet]

/-- C8 counterexample.  After the first run of `[mixedSheet]` two rows
hold images (one pre-existing, one filled in run 1) and one row has a
blank title.  The claim says the second run counts every previously
filled row as Skipped, which would make the skipped count at least 3;
the code's second run reports skipped = 1 — already-filled rows are
passed over without touching any counter. -/
theorem c8_counterexample :
    (processWorkbook constResolve [mixedSheet]).2.1 = 1 ∧
    (processWorkbook constResolve (processWorkbook constResolve [mixedSheet]).1).2.1
      = 0 ∧
    (processWorkbook constResolve (processWorkbook constResolve [mixedSheet]).1).2.2
      = 1 ∧
    (processWorkbook constResolve (processWorkbook constResolve [mixedSheet]).1).2.2
      ≠ 3 := by
  decide

end Woo
